import Mathlib

/-!
Verification of the caption-viewer text pipeline (`src/__init__.py`).

The Python source is shallowly embedded: pure string transformations become
functions on `List Char` (wrapped into `String` for the statements), the
panel's event handlers become functions on an explicit state record, and the
host framework (record store, rendering) is an explicit environment.

Regex character classes (`\s`, `\w`) and case folding are modelled over the
ASCII range, which covers every input exercised here.
-/

namespace CaptionViewer

/-- ASCII lower-casing, as applied by case-insensitive regex matching. -/
def asciiLower (c : Char) : Char :=
  if 'A' ≤ c ∧ c ≤ 'Z' then Char.ofNat (c.toNat + 32) else c

/-- Case-insensitive character comparison (ASCII). -/
def ciEq (a b : Char) : Bool := asciiLower a == asciiLower b

/-- Python regex `\s` over ASCII: space, tab, newline, vertical tab, form feed,
carriage return. -/
def isSpaceChar (c : Char) : Bool :=
  c == ' ' || (9 ≤ c.toNat && c.toNat ≤ 13)

/-- Python regex `\w` over ASCII: letters, digits, underscore. -/
def isWordChar (c : Char) : Bool :=
  ('a' ≤ c && c ≤ 'z') || ('A' ≤ c && c ≤ 'Z') || ('0' ≤ c && c ≤ '9') || c == '_'

/-- The double-quote character. -/
def dquote : Char := Char.ofNat 34

/-- The single-quote character. -/
def squote : Char := Char.ofNat 39

/-- A character matched by the regex class `["\x27]`. -/
def isQuoteChar (c : Char) : Bool := c == dquote || c == squote

/-- Case-insensitive test that `pat` is a prefix of `cs` (ASCII folding). -/
def ciStarts : List Char → List Char → Bool
  | [], _ => true
  | _ :: _, [] => false
  | p :: ps, c :: cs => ciEq p c && ciStarts ps cs

/-- Case-insensitive substring test: some suffix of `cs` starts with `pat`. -/
def hasSubCI (pat : List Char) : List Char → Bool
  | [] => pat.isEmpty
  | c :: cs => ciStarts pat (c :: cs) || hasSubCI pat cs

/-- Index of the first case-insensitive occurrence of `pat`, if any. -/
def findCI (pat : List Char) : List Char → Option Nat
  | [] => if pat.isEmpty then some 0 else none
  | c :: cs =>
    if ciStarts pat (c :: cs) then some 0
    else (findCI pat cs).map (· + 1)

/-- Index of the first character satisfying `p`, if any. -/
def findCharIdx (p : Char → Bool) : List Char → Option Nat
  | [] => none
  | c :: cs => if p c then some 0 else (findCharIdx p cs).map (· + 1)

/-- Length of the longest prefix whose characters all satisfy `p`
(the maximal munch of a regex class repetition). -/
def countWhile (p : Char → Bool) : List Char → Nat
  | [] => 0
  | c :: cs => if p c then countWhile p cs + 1 else 0

/-- Pattern constant: the characters of `<script`. -/
def scriptOpen : List Char := "<script".toList

/-- Pattern constant: the characters of `</script>`. -/
def scriptClose : List Char := "</script>".toList

/-- Length of the match of `<script[^>]*>.*?</script>` (IGNORECASE, DOTALL)
anchored at the head of `cs`, if it matches there.  `[^>]*>` consumes up to
the first `>`, and the lazy `.*?</script>` runs to the first case-insensitive
`</script>` after it, exactly as the Python regex engine resolves
`re.sub(r'<script[^>]*>.*?</script>', '', text, flags=re.IGNORECASE | re.DOTALL)`
in `CaptionViewerPanel._sanitize_content`. -/
def scriptMatch (cs : List Char) : Option Nat :=
  if ciStarts scriptOpen cs then
    match findCharIdx (· == '>') (cs.drop 7) with
    | none => none
    | some i =>
      match findCI scriptClose ((cs.drop 7).drop (i + 1)) with
      | none => none
      | some j => some (7 + i + 1 + j + 9)
  else none

/-- Left-to-right, non-overlapping removal of every `<script...>...</script>`
match, with explicit fuel (one unit per scan step; `fuel = cs.length` is
always sufficient since every step consumes at least one character). -/
def removeScriptsF : Nat → List Char → List Char
  | 0, cs => cs
  | _ + 1, [] => []
  | fuel + 1, c :: cs =>
    match scriptMatch (c :: cs) with
    | some k => removeScriptsF fuel (List.drop k (c :: cs))
    | none => c :: removeScriptsF fuel cs

/-- First regex pass of `_sanitize_content`: remove script blocks. -/
def removeScripts (cs : List Char) : List Char := removeScriptsF cs.length cs

/-- Suffix after the maximal munch of `\s*`. -/
def afterWs (cs : List Char) : List Char := cs.drop (countWhile isSpaceChar cs)

/-- Length consumed by `[^"\x27]*["\x27]` at the head of `r7`, if it
matches: a maximal run of non-quote characters followed by one quote of
either kind. -/
def handlerQuoted (r7 : List Char) : Option Nat :=
  match r7.drop (countWhile (fun c => !isQuoteChar c) r7) with
  | q2 :: _ =>
    if isQuoteChar q2 then some (countWhile (fun c => !isQuoteChar c) r7 + 1)
    else none
  | [] => none

/-- Length consumed by `\s*["\x27][^"\x27]*["\x27]` at the head of `r5`. -/
def handlerAfterEq (r5 : List Char) : Option Nat :=
  match afterWs r5 with
  | q :: r7 =>
    if isQuoteChar q then
      (handlerQuoted r7).map fun m => countWhile isSpaceChar r5 + 1 + m
    else none
  | [] => none

/-- Length consumed by `\s*=` and the quoted value at the head of `r3`. -/
def handlerAfterName (r3 : List Char) : Option Nat :=
  match afterWs r3 with
  | '=' :: r5 => (handlerAfterEq r5).map fun m => countWhile isSpaceChar r3 + 1 + m
  | _ => none

/-- Length of the match of `\s*on\w+\s*=\s*["\x27][^"\x27]*["\x27]`
(IGNORECASE) anchored at the head of `cs`, if it matches there.  Every
repetition is resolved by maximal munch; no backtracking can succeed where
the greedy resolution fails, because no character class here overlaps the
literal that follows it. -/
def handlerMatch (cs : List Char) : Option Nat :=
  if ciStarts ['o', 'n'] (afterWs cs) then
    if countWhile isWordChar ((afterWs cs).drop 2) = 0 then none
    else
      (handlerAfterName
          (((afterWs cs).drop 2).drop (countWhile isWordChar ((afterWs cs).drop 2)))).map
        fun m => countWhile isSpaceChar cs + 2
          + countWhile isWordChar ((afterWs cs).drop 2) + m
  else none

/-- Left-to-right, non-overlapping removal of every inline event-handler
attribute match, with explicit fuel. -/
def removeHandlersF : Nat → List Char → List Char
  | 0, cs => cs
  | _ + 1, [] => []
  | fuel + 1, c :: cs =>
    match handlerMatch (c :: cs) with
    | some k => removeHandlersF fuel (List.drop k (c :: cs))
    | none => c :: removeHandlersF fuel cs

/-- Second regex pass of `_sanitize_content`: remove inline event handlers. -/
def removeHandlers (cs : List Char) : List Char := removeHandlersF cs.length cs

/-- `CaptionViewerPanel._sanitize_content`: empty input yields `""`; otherwise
the script-block pass runs first and the event-handler pass second. -/
def sanitize (text : String) : String :=
  if text = "" then "" else ⟨removeHandlers (removeScripts text.data)⟩

/-- Match of the specification's event-handler attribute pattern
`on\w+\s*=` (case-insensitive) anchored at the head of `cs`; stated from the
spec's words to judge the sanitizer's output.  `\w+` resolves by maximal
munch, which is complete here since a shorter match would put a word
character where `\s*=` must start. -/
def onEqAt (cs : List Char) : Bool :=
  ciStarts ['o', 'n'] cs &&
    (countWhile isWordChar (cs.drop 2) != 0) &&
    (match ((cs.drop 2).drop (countWhile isWordChar (cs.drop 2))).drop
        (countWhile isSpaceChar ((cs.drop 2).drop (countWhile isWordChar (cs.drop 2)))) with
     | '=' :: _ => true
     | _ => false)

/-- Occurrence of the pattern `on\w+\s*=` anywhere in `cs`. -/
def hasOnEq : List Char → Bool
  | [] => false
  | c :: cs => onEqAt (c :: cs) || hasOnEq cs

/-- The backslash character. -/
def bslash : Char := '\\'

/-- Exact (case-sensitive) prefix test. -/
def startsWithL : List Char → List Char → Bool
  | [], _ => true
  | _ :: _, [] => false
  | p :: ps, c :: cs => p == c && startsWithL ps cs

/-- Substring test for the two-character sequence `[a, b]`,
Python's `ab in text`. -/
def contains2 (a b : Char) : List Char → Bool
  | c :: d :: rest => (c == a && d == b) || contains2 a b (d :: rest)
  | _ => false

/-- Python `str.replace` for a two-character pattern `[a, b]` and a
one-character replacement `r`: left-to-right, non-overlapping. -/
def replace2 (a b r : Char) : List Char → List Char
  | c :: d :: rest =>
    if c == a && d == b then r :: replace2 a b r rest
    else c :: replace2 a b r (d :: rest)
  | cs => cs

/-- Python `str.replace` for a one-character pattern `a` and replacement
string `rep`. -/
def replace1 (a : Char) (rep : List Char) : List Char → List Char
  | [] => []
  | c :: cs => (if c == a then rep else [c]) ++ replace1 a rep cs

/-- Python `str.strip()` over ASCII whitespace: drop leading and trailing
whitespace characters. -/
def pythonStrip (cs : List Char) : List Char :=
  ((cs.dropWhile fun c => isSpaceChar c).reverse.dropWhile fun c => isSpaceChar c).reverse

/-- The fence marker, three backticks. -/
def fenceMarker : List Char := "```".toList

/-- Test from `_process_escape_sequences` and `render`:
`text.strip().startswith('```')`. -/
def startsWithFence (cs : List Char) : Bool := startsWithL fenceMarker (pythonStrip cs)

/-- One pass of `_process_escape_sequences`: `if ab in text: text =
text.replace(ab, r)`. -/
def guardedReplace (a b r : Char) (cs : List Char) : List Char :=
  if contains2 a b cs then replace2 a b r cs else cs

/-- Replacement core of `_process_escape_sequences`: the literal sequences
`\n`, `\t`, `\r` are globally replaced (in that order) by newline, tab and
carriage return, each pass guarded by a substring test as in the source. -/
def resolveL (cs : List Char) : List Char :=
  guardedReplace bslash 'r' '\r'
    (guardedReplace bslash 't' '\t' (guardedReplace bslash 'n' '\n' cs))

/-- `CaptionViewerPanel._process_escape_sequences`: empty input yields `""`;
text whose stripped form starts with a fence is returned unchanged; otherwise
the three replacement passes run. -/
def process_escape_sequences (text : String) : String :=
  if text = "" then ""
  else if startsWithFence text.data then text
  else ⟨resolveL text.data⟩

/-- Modelled from the spec: the streaming tag/text walk of the standard
library's `html.parser.HTMLParser` (external to `src/`), which feeds the
`HTMLTableToMarkdown` subclass.  Section 4.3 of the spec describes it as a
small streaming tag scanner: a `<`-initiated group `</name>` or `<name ...>`
produces an end-tag or start-tag event with the lower-cased tag name (up to
the first whitespace or `/` for start tags), and every other character is a
data event.  Attributes are skipped; comments, entity references and
self-closing tags do not occur in the inputs considered here and are not
modelled. -/
inductive HTok where
  | sTag (name : List Char)
  | eTag (name : List Char)
  | txt (c : Char)

/-- Lower-case a whole tag name. -/
def lowerAll (cs : List Char) : List Char := cs.map asciiLower

/-- Name of a start tag: characters up to the first whitespace or `/`. -/
def tagNameOf (cs : List Char) : List Char :=
  lowerAll (cs.takeWhile fun c => !(isSpaceChar c || c == '/'))

/-- ASCII letter test. -/
def isAlphaChar (c : Char) : Bool := ('a' ≤ c && c ≤ 'z') || ('A' ≤ c && c ≤ 'Z')

/-- Tokenizer for the tag/text walk, with explicit fuel (one unit per
emitted token; the input length is always sufficient). -/
def tokenizeF : Nat → List Char → List HTok
  | 0, _ => []
  | _ + 1, [] => []
  | fuel + 1, c :: cs =>
    if c == '<' then
      match cs with
      | '/' :: cs2 =>
        (match findCharIdx (· == '>') cs2 with
         | some i => .eTag (lowerAll ((cs2.take i).takeWhile fun x => !isSpaceChar x)) ::
             tokenizeF fuel (cs2.drop (i + 1))
         | none => [])
      | d :: _ =>
        if isAlphaChar d then
          match findCharIdx (· == '>') cs with
          | some i => .sTag (tagNameOf (cs.take i)) :: tokenizeF fuel (cs.drop (i + 1))
          | none => []
        else .txt c :: tokenizeF fuel cs
      | [] => []
    else .txt c :: tokenizeF fuel cs

/-- Tokenize a whole character list. -/
def tokenize (cs : List Char) : List HTok := tokenizeF cs.length cs

/-- State of the `HTMLTableToMarkdown` parser, translated field by field
from its `__init__`. -/
structure TableWalk where
  in_table : Bool := false
  in_row : Bool := false
  in_cell : Bool := false
  rows : List (List String) := []
  current_row : List String := []
  current_cell : List Char := []

/-- `HTMLTableToMarkdown.handle_starttag`. -/
def handle_starttag (p : TableWalk) (tag : List Char) : TableWalk :=
  if tag = "table".toList then { p with in_table := true, rows := [] }
  else if tag = "tr".toList then { p with in_row := true, current_row := [] }
  else if tag = "th".toList || tag = "td".toList then
    { p with in_cell := true, current_cell := [] }
  else p

/-- `HTMLTableToMarkdown.handle_endtag`. -/
def handle_endtag (p : TableWalk) (tag : List Char) : TableWalk :=
  if tag = "table".toList then { p with in_table := false }
  else if tag = "tr".toList then
    let q := { p with in_row := false }
    if q.current_row ≠ [] then { q with rows := q.rows ++ [q.current_row] } else q
  else if tag = "th".toList || tag = "td".toList then
    { p with in_cell := false,
             current_row := p.current_row ++ [⟨pythonStrip p.current_cell⟩] }
  else p

/-- `HTMLTableToMarkdown.handle_data`, one character at a time. -/
def handle_data (p : TableWalk) (c : Char) : TableWalk :=
  if p.in_cell then { p with current_cell := p.current_cell ++ [c] } else p

/-- Dispatch one token to the handlers, as `HTMLParser.feed` does. -/
def feedTok (p : TableWalk) : HTok → TableWalk
  | .sTag n => handle_starttag p n
  | .eTag n => handle_endtag p n
  | .txt c => handle_data p c

/-- Feed a token stream through the handler state machine. -/
def feedToks (p : TableWalk) : List HTok → TableWalk
  | [] => p
  | t :: ts => feedToks (feedTok p t) ts

/-- Rows collected by feeding one table span to a fresh parser. -/
def parseTableRows (span : List Char) : List (List String) :=
  (feedToks {} (tokenize span)).rows

/-- Cell escaping from `get_markdown`: `cell.replace("|", "\\|")`. -/
def escapeCell (cell : String) : String := ⟨replace1 '|' [bslash, '|'] cell.data⟩

/-- One rendered grid row: `"| " + " | ".join(escaped_row) + " |"`. -/
def renderRow (row : List String) : String :=
  "| " ++ String.intercalate " | " (row.map escapeCell) ++ " |"

/-- The separator row with `n` columns. -/
def sepRow (n : Nat) : String :=
  "| " ++ String.intercalate " | " (List.replicate n "---") ++ " |"

/-- `HTMLTableToMarkdown.get_markdown`: empty grid yields `""`, otherwise each
row is rendered in order and the separator is inserted after the row of
index `0`. -/
def get_markdown (rows : List (List String)) : String :=
  if rows = [] then ""
  else String.intercalate "\n"
    ((rows.enum.map fun p =>
      if p.1 = 0 then [renderRow p.2, sepRow p.2.length] else [renderRow p.2]).flatten)

/-- The `replace_table` closure of `_convert_html_tables_to_markdown`,
parameterized by the parsing step (the `try` body), whose possible failure is
the caught exception: a failed parse yields the fenced `html` block, a parsed
grid is rendered with `get_markdown`, an empty rendering returns the span
verbatim. -/
def replace_table (parse : List Char → Except Unit (List (List String)))
    (html_table : List Char) : List Char :=
  match parse html_table with
  | .error _ => "\n```html\n".toList ++ html_table ++ "\n```\n".toList
  | .ok rows =>
    let md := get_markdown rows
    if md ≠ "" then "\n\n".toList ++ md.data ++ "\n\n".toList else html_table

/-- The concrete parsing step used by the source: feed the span to a fresh
`HTMLTableToMarkdown` and read its rows (never failing in this model). -/
def tableParse (span : List Char) : Except Unit (List (List String)) :=
  .ok (parseTableRows span)

/-- Pattern constant: the characters of `<table`. -/
def tableOpen : List Char := "<table".toList

/-- Pattern constant: the characters of `</table>`. -/
def tableClose : List Char := "</table>".toList

/-- Length of the match of `<table[\s\S]*?</table>` (IGNORECASE) anchored at
the head of `cs`, if it matches there: `<table` followed lazily by everything
up to the first case-insensitive `</table>`. -/
def tableMatch (cs : List Char) : Option Nat :=
  if ciStarts tableOpen cs then
    match findCI tableClose (cs.drop 6) with
    | none => none
    | some j => some (6 + j + 8)
  else none

/-- Left-to-right, non-overlapping replacement of every table span by
`rep span`, with explicit fuel, as `re.sub` with a replacement function. -/
def convertTablesF (rep : List Char → List Char) : Nat → List Char → List Char
  | 0, cs => cs
  | _ + 1, [] => []
  | fuel + 1, c :: cs =>
    match tableMatch (c :: cs) with
    | some k => rep ((c :: cs).take k) ++ convertTablesF rep fuel ((c :: cs).drop k)
    | none => c :: convertTablesF rep fuel cs

/-- Table-span replacement over a whole character list. -/
def convertTablesL (rep : List Char → List Char) (cs : List Char) : List Char :=
  convertTablesF rep cs.length cs

/-- `CaptionViewerPanel._convert_html_tables_to_markdown`. -/
def convert_html_tables (text : String) : String :=
  ⟨convertTablesL (replace_table tableParse) text.data⟩

/-- The opening-brace character. -/
def lbrace : Char := Char.ofNat 123

/-- The closing-brace character. -/
def rbrace : Char := Char.ofNat 125

mutual

/-- Modelled from the spec: JSON values as produced by the standard library's
`json.loads` (external to `src/`), which `_detect_and_format_json` calls.
Integers keep their exact value; non-integral numbers (and `NaN`, `Infinity`)
keep their source token, so Python's float normalization on re-serialization
is not modelled — no claim here exercises a non-integral number. -/
inductive JVal where
  | jnull
  | jbool (b : Bool)
  | jint (n : Int)
  | jnum (raw : List Char)
  | jstr (s : List Char)
  | jarr (xs : JItems)
  | jobj (fs : JFields)

inductive JItems where
  | nil
  | cons (v : JVal) (tl : JItems)

inductive JFields where
  | nil
  | cons (k : List Char) (v : JVal) (tl : JFields)

end

/-- JSON whitespace: space, tab, newline, carriage return. -/
def jsonWs (c : Char) : Bool := c == ' ' || c == '\t' || c == '\n' || c == '\r'

/-- Drop leading JSON whitespace. -/
def skipJWs (cs : List Char) : List Char := cs.dropWhile fun c => jsonWs c

/-- ASCII digit test. -/
def isDigitChar (c : Char) : Bool := '0' ≤ c && c ≤ '9'

/-- Numeric value of a run of decimal digits. -/
def digitsToNat : List Char → Nat → Nat
  | [], acc => acc
  | c :: cs, acc => digitsToNat cs (acc * 10 + (c.toNat - 48))

/-- Value of one hex digit, if the character is one. -/
def hexVal (c : Char) : Option Nat :=
  if '0' ≤ c && c ≤ '9' then some (c.toNat - 48)
  else if 'a' ≤ c && c ≤ 'f' then some (c.toNat - 87)
  else if 'A' ≤ c && c ≤ 'F' then some (c.toNat - 55)
  else none

/-- Parse exactly four hex digits. -/
def hex4 : List Char → Option (Nat × List Char)
  | a :: b :: c :: d :: rest =>
    match hexVal a, hexVal b, hexVal c, hexVal d with
    | some x, some y, some z, some w => some (((x * 16 + y) * 16 + z) * 16 + w, rest)
    | _, _, _, _ => none
  | _ => none

/-- Parse the body of a JSON string after the opening quote, with strict
control-character rejection and the standard escapes, as `json.loads` does.
Surrogate-pair `\uXXXX` escapes are combined; a lone surrogate (which Python
would keep as an unpaired code unit, unrepresentable in `Char`) is rejected. -/
def parseStringF : Nat → List Char → Option (List Char × List Char)
  | 0, _ => none
  | fuel + 1, cs =>
    match cs with
    | [] => none
    | c :: rest =>
      if c = dquote then some ([], rest)
      else if c = bslash then
        match rest with
        | [] => none
        | e :: rest2 =>
          if e = dquote then (parseStringF fuel rest2).map fun p => (dquote :: p.1, p.2)
          else if e = bslash then (parseStringF fuel rest2).map fun p => (bslash :: p.1, p.2)
          else if e = '/' then (parseStringF fuel rest2).map fun p => ('/' :: p.1, p.2)
          else if e = 'b' then (parseStringF fuel rest2).map fun p => (Char.ofNat 8 :: p.1, p.2)
          else if e = 'f' then (parseStringF fuel rest2).map fun p => (Char.ofNat 12 :: p.1, p.2)
          else if e = 'n' then (parseStringF fuel rest2).map fun p => ('\n' :: p.1, p.2)
          else if e = 'r' then (parseStringF fuel rest2).map fun p => ('\r' :: p.1, p.2)
          else if e = 't' then (parseStringF fuel rest2).map fun p => ('\t' :: p.1, p.2)
          else if e = 'u' then
            match hex4 rest2 with
            | none => none
            | some (n, rest3) =>
              if 0xD800 ≤ n ∧ n ≤ 0xDBFF then
                match rest3 with
                | b1 :: u1 :: rest4 =>
                  if b1 = bslash ∧ u1 = 'u' then
                    match hex4 rest4 with
                    | some (n2, rest5) =>
                      if 0xDC00 ≤ n2 ∧ n2 ≤ 0xDFFF then
                        (parseStringF fuel rest5).map fun p =>
                          (Char.ofNat (0x10000 + (n - 0xD800) * 0x400 + (n2 - 0xDC00)) :: p.1, p.2)
                      else none
                    | none => none
                  else none
                | _ => none
              else if 0xDC00 ≤ n ∧ n ≤ 0xDFFF then none
              else (parseStringF fuel rest3).map fun p => (Char.ofNat n :: p.1, p.2)
          else none
      else if c.toNat < 0x20 then none
      else (parseStringF fuel rest).map fun p => (c :: p.1, p.2)

/-- Parse a JSON number at the head of `cs`, following the decoder's
`NUMBER_RE` regex `(-?(?:0|[1-9]\d*))(\.\d+)?([eE][-+]?\d+)?`: the integer
part forbids leading zeros, and fraction/exponent groups match only when
complete.  A purely integral token becomes `jint`; otherwise the raw token is
kept. -/
def parseNumber (cs : List Char) : Option (JVal × List Char) :=
  let sgn : Bool := match cs with | c :: _ => c = '-' | [] => false
  let cs1 := if sgn then cs.drop 1 else cs
  match cs1 with
  | c :: _ =>
    if !isDigitChar c then none
    else
      let intLen := if c = '0' then 1 else countWhile isDigitChar cs1
      let cs2 := cs1.drop intLen
      let fracLen : Nat :=
        match cs2 with
        | d :: t => if d = '.' then (let k := countWhile isDigitChar t; if k = 0 then 0 else k + 1) else 0
        | [] => 0
      let cs3 := cs2.drop fracLen
      let expLen : Nat :=
        match cs3 with
        | e :: t =>
          if e = 'e' ∨ e = 'E' then
            match t with
            | s :: t2 =>
              if s = '+' ∨ s = '-' then (let k := countWhile isDigitChar t2; if k = 0 then 0 else k + 2)
              else (let k := countWhile isDigitChar t; if k = 0 then 0 else k + 1)
            | [] => 0
          else 0
        | [] => 0
      let tokLen := (if sgn then 1 else 0) + intLen + fracLen + expLen
      if fracLen = 0 ∧ expLen = 0 then
        let v : Int := Int.ofNat (digitsToNat (cs1.take intLen) 0)
        some (.jint (if sgn then -v else v), cs.drop tokLen)
      else some (.jnum (cs.take tokLen), cs.drop tokLen)
  | [] => none

/-- Replay a field list into a Python `dict`: an existing key is updated in
place, a new key is appended. -/
def setField : JFields → List Char → JVal → JFields
  | .nil, k, v => .cons k v .nil
  | .cons k0 v0 tl, k, v =>
    if k0 = k then .cons k0 v tl else .cons k0 v0 (setField tl k v)

/-- Fold a parsed field sequence into `dict` insertion semantics. -/
def dedupFields (acc : JFields) : JFields → JFields
  | .nil => acc
  | .cons k v tl => dedupFields (setField acc k v) tl

mutual

/-- Parse one JSON value at the head of `cs` (no leading whitespace),
returning it with the remaining input, as the decoder's `scan_once`. -/
def parseValueF : Nat → List Char → Option (JVal × List Char)
  | 0, _ => none
  | fuel + 1, cs =>
    match cs with
    | [] => none
    | c :: rest =>
      if c = dquote then (parseStringF fuel rest).map fun p => (.jstr p.1, p.2)
      else if c = lbrace then parseObjectF fuel (skipJWs rest)
      else if c = '[' then parseArrayF fuel (skipJWs rest)
      else if startsWithL "null".toList cs then some (.jnull, cs.drop 4)
      else if startsWithL "true".toList cs then some (.jbool true, cs.drop 4)
      else if startsWithL "false".toList cs then some (.jbool false, cs.drop 5)
      else if startsWithL "NaN".toList cs then some (.jnum "NaN".toList, cs.drop 3)
      else if startsWithL "Infinity".toList cs then some (.jnum "Infinity".toList, cs.drop 8)
      else if startsWithL "-Infinity".toList cs then some (.jnum "-Infinity".toList, cs.drop 9)
      else parseNumber cs

/-- Parse the inside of an array, positioned (whitespace skipped) at either
`]` or the first element. -/
def parseArrayF : Nat → List Char → Option (JVal × List Char)
  | 0, _ => none
  | fuel + 1, cs =>
    match cs with
    | c :: rest => if c = ']' then some (.jarr .nil, rest) else
        (parseItemsF fuel cs).map fun p => (.jarr p.1, p.2)
    | [] => none

/-- Parse `value (, value)* ]`, whitespace-tolerant, positioned at a value. -/
def parseItemsF : Nat → List Char → Option (JItems × List Char)
  | 0, _ => none
  | fuel + 1, cs =>
    match parseValueF fuel cs with
    | none => none
    | some (v, r1) =>
      match skipJWs r1 with
      | c :: r2 =>
        if c = ',' then (parseItemsF fuel (skipJWs r2)).map fun p => (.cons v p.1, p.2)
        else if c = ']' then some (.cons v .nil, r2)
        else none
      | [] => none

/-- Parse the inside of an object, positioned (whitespace skipped) at either
`\x7d` or the first key. -/
def parseObjectF : Nat → List Char → Option (JVal × List Char)
  | 0, _ => none
  | fuel + 1, cs =>
    match cs with
    | c :: rest => if c = rbrace then some (.jobj .nil, rest) else
        (parseFieldsF fuel cs).map fun p => (.jobj (dedupFields .nil p.1), p.2)
    | [] => none

/-- Parse `"key" : value (, "key" : value)* \x7d`, positioned at a key. -/
def parseFieldsF : Nat → List Char → Option (JFields × List Char)
  | 0, _ => none
  | fuel + 1, cs =>
    match cs with
    | c :: rest =>
      if c = dquote then
        match parseStringF fuel rest with
        | none => none
        | some (k, r1) =>
          match skipJWs r1 with
          | c2 :: r2 =>
            if c2 = ':' then
              match parseValueF fuel (skipJWs r2) with
              | none => none
              | some (v, r3) =>
                match skipJWs r3 with
                | c3 :: r4 =>
                  if c3 = ',' then
                    (parseFieldsF fuel (skipJWs r4)).map fun p => (.cons k v p.1, p.2)
                  else if c3 = rbrace then some (.cons k v .nil, r4)
                  else none
                | [] => none
            else none
          | [] => none
      else none
    | [] => none

end


/-- Python `json.loads`: skip leading whitespace, parse one value, require
only whitespace to remain; `none` models every raised decoding error. -/
def jsonLoads (text : String) : Option JVal :=
  match parseValueF (text.data.length + 1) (skipJWs text.data) with
  | some (v, rest) => if skipJWs rest = [] then some v else none
  | none => none

/-- Indentation of `2 * lvl` spaces used by `json.dumps(_, indent=2)`. -/
def ind (lvl : Nat) : List Char := List.replicate (2 * lvl) ' '

/-- Lower-case hex digit of a value below 16. -/
def hexDigit (n : Nat) : Char :=
  if n < 10 then Char.ofNat (48 + n) else Char.ofNat (87 + n)

/-- Four-digit `\uXXXX` escape. -/
def uEscape4 (n : Nat) : List Char :=
  [bslash, 'u', hexDigit (n / 4096 % 16), hexDigit (n / 256 % 16),
   hexDigit (n / 16 % 16), hexDigit (n % 16)]

/-- Escape one character as `json.dumps` does with `ensure_ascii=True`:
quote and backslash get two-character escapes, the named control characters
get their short escapes, every other character outside printable ASCII is
`\uXXXX`-escaped (as a surrogate pair beyond the BMP). -/
def escJChar (c : Char) : List Char :=
  if c = dquote then [bslash, dquote]
  else if c = bslash then [bslash, bslash]
  else if c = '\n' then [bslash, 'n']
  else if c = '\r' then [bslash, 'r']
  else if c = '\t' then [bslash, 't']
  else if c.toNat = 8 then [bslash, 'b']
  else if c.toNat = 12 then [bslash, 'f']
  else if c.toNat < 0x20 ∨ 0x7E < c.toNat then
    if c.toNat < 0x10000 then uEscape4 c.toNat
    else
      let n := c.toNat - 0x10000
      uEscape4 (0xD800 + n / 0x400) ++ uEscape4 (0xDC00 + n % 0x400)
  else [c]

/-- Serialize a string with quotes and escapes. -/
def encodeJString (s : List Char) : List Char :=
  dquote :: (s.map escJChar).flatten ++ [dquote]

mutual

/-- Modelled from the spec: re-serialization "with 2-space indentation" by
the standard library's `json.dumps(data, indent=2)` (external to `src/`),
at nesting level `lvl`. -/
def dumpsVal : Nat → JVal → List Char
  | _, .jnull => "null".toList
  | _, .jbool true => "true".toList
  | _, .jbool false => "false".toList
  | _, .jint n => (toString n).toList
  | _, .jnum raw => raw
  | _, .jstr s => encodeJString s
  | _, .jarr .nil => "[]".toList
  | lvl, .jarr (.cons v tl) =>
    '[' :: '\n' :: dumpsItems (lvl + 1) (.cons v tl) ++ '\n' :: ind lvl ++ [']']
  | _, .jobj .nil => [lbrace, rbrace]
  | lvl, .jobj (.cons k v tl) =>
    lbrace :: '\n' :: dumpsFields (lvl + 1) (.cons k v tl) ++ '\n' :: ind lvl ++ [rbrace]

/-- Array elements, one per line at level `lvl`, comma-separated. -/
def dumpsItems : Nat → JItems → List Char
  | _, .nil => []
  | lvl, .cons v .nil => ind lvl ++ dumpsVal lvl v
  | lvl, .cons v (.cons w tl) =>
    ind lvl ++ dumpsVal lvl v ++ ',' :: '\n' :: dumpsItems lvl (.cons w tl)

/-- Object members, one per line at level `lvl`, with `": "` key separator. -/
def dumpsFields : Nat → JFields → List Char
  | _, .nil => []
  | lvl, .cons k v .nil => ind lvl ++ encodeJString k ++ ':' :: ' ' :: dumpsVal lvl v
  | lvl, .cons k v (.cons k2 w tl) =>
    ind lvl ++ encodeJString k ++ ':' :: ' ' :: dumpsVal lvl v ++
      ',' :: '\n' :: dumpsFields lvl (.cons k2 w tl)

end

/-- `CaptionViewerPanel._detect_and_format_json`: a successful `json.loads`
yields the fenced, re-indented serialization and `True`; any failure yields
the original text and `False`. -/
def detect_and_format_json (text : String) : String × Bool :=
  match jsonLoads text with
  | some v => ("```json\n" ++ String.mk (dumpsVal 0 v) ++ "\n```", true)
  | none => (text, false)

/-- `CaptionViewerPanel._process_vlm_output` with its four stages abstracted:
falsy input (absent or empty) returns `""` before any stage runs; otherwise
sanitize, then the JSON branch short-circuits, otherwise table conversion
then escape resolution. -/
def process_vlm_outputWith (san : String → String) (fmt : String → String × Bool)
    (tab : String → String) (esc : String → String) : Option String → String
  | none => ""
  | some text =>
    if text = "" then ""
    else
      let t1 := san text
      let pj := fmt t1
      if pj.2 then pj.1 else esc (tab t1)

/-- `CaptionViewerPanel._process_vlm_output` on a present string. -/
def process_vlm_output (text : String) : String :=
  process_vlm_outputWith sanitize detect_and_format_json convert_html_tables
    process_escape_sequences (some text)

/-- Panel state fields touched by the edit-session handlers, as stored in
`ctx.panel.state` (absent keys read through `.get` defaults are `none`,
`""` and `false`). -/
structure PanelState where
  selected_field : Option String
  display_text : String
  edit_mode : Bool
  edit_text : Option String
  empty_state : Option String

/-- Fields of one record: `has_field` failing is `none`, a present field
holds an optional string value (`None` being `some none`). -/
def Sample := String → Option (Option String)

/-- The host context as the handlers see it: the current sample id (absent
or falsy ids collapse to `none`), the record lookup of `on_load` (an
`error` models any raised exception), and the lookup-set-save sequence of
`on_save_edit` (an `error` models a persistence failure). -/
structure Env where
  currentSample : Option String
  getSample : String → Except Unit Sample
  persist : String → String → String → Except Unit Unit

/-- `CaptionViewerPanel.on_load`: no selected field records the empty-state
notice; no current sample returns unchanged; otherwise the field value is
read with every failure degraded to an empty display text. -/
def on_load (env : Env) (s : PanelState) : PanelState :=
  match s.selected_field with
  | none => { s with empty_state := some "No field selected" }
  | some f =>
    match env.currentSample with
    | none => s
    | some sid =>
      match env.getSample sid with
      | .error _ => { s with display_text := "" }
      | .ok sample =>
        match sample f with
        | none => { s with display_text := "" }
        | some none => { s with display_text := "" }
        | some (some v) => { s with display_text := v }

/-- `CaptionViewerPanel.on_field_select`: store the chosen field, leave edit
mode, clear the edit buffer, then reload. -/
def on_field_select (env : Env) (value : Option String) (s : PanelState) : PanelState :=
  on_load env { s with selected_field := value, edit_mode := false, edit_text := none }

/-- `CaptionViewerPanel.on_change_current_sample`: leave edit mode, clear the
edit buffer, then reload. -/
def on_change_current_sample (env : Env) (s : PanelState) : PanelState :=
  on_load env { s with edit_mode := false, edit_text := none }

/-- `CaptionViewerPanel.on_edit_click`: enter edit mode with the current
display text as the initial buffer. -/
def on_edit_click (s : PanelState) : PanelState :=
  { s with edit_mode := true, edit_text := some s.display_text }

/-- `CaptionViewerPanel.on_save_edit`: without a sample id and a selected
field, return unchanged; otherwise attempt the write-and-save, and only on
success update the display text, leave edit mode and clear the buffer — the
caught exception leaves every state field as it was. -/
def on_save_edit (env : Env) (s : PanelState) : PanelState :=
  match env.currentSample, s.selected_field with
  | some sid, some f =>
    match env.persist sid f (s.edit_text.getD "") with
    | .ok _ =>
      { s with display_text := s.edit_text.getD "", edit_mode := false, edit_text := none }
    | .error _ => s
  | _, _ => s

/-- `CaptionViewerPanel.on_cancel_edit`: leave edit mode and clear the
buffer. -/
def on_cancel_edit (s : PanelState) : PanelState :=
  { s with edit_mode := false, edit_text := none }

/-- The panel actions whose handlers mutate the edit-session state. -/
inductive Action where
  | fieldSelect (value : Option String)
  | changeSample
  | editClick
  | saveEdit
  | cancelEdit
  | load

/-- Dispatch one action to its handler. -/
def applyAction (env : Env) : Action → PanelState → PanelState
  | .fieldSelect v, s => on_field_select env v s
  | .changeSample, s => on_change_current_sample env s
  | .editClick, s => on_edit_click s
  | .saveEdit, s => on_save_edit env s
  | .cancelEdit, s => on_cancel_edit s
  | .load, s => on_load env s

/-- Run a sequence of actions, each under its own environment. -/
def runActions : List (Env × Action) → PanelState → PanelState
  | [], s => s
  | (env, a) :: rest, s => runActions rest (applyAction env a s)

/-- The panel state before any action: no key is set, so every `.get`
default applies. -/
def initState : PanelState :=
  { selected_field := none, display_text := "", edit_mode := false,
    edit_text := none, empty_state := none }

/-- The edit-buffer invariant: outside edit mode the buffer is cleared. -/
def EditInv (s : PanelState) : Prop := s.edit_mode = false → s.edit_text = none

deriving instance DecidableEq for JVal

theorem on_load_edit_mode (env : Env) (s : PanelState) :
    (on_load env s).edit_mode = s.edit_mode := by
  unfold on_load
  repeat' split
  all_goals rfl

theorem on_load_edit_text (env : Env) (s : PanelState) :
    (on_load env s).edit_text = s.edit_text := by
  unfold on_load
  repeat' split
  all_goals rfl

theorem applyAction_inv (env : Env) (a : Action) (s : PanelState)
    (h : EditInv s) : EditInv (applyAction env a s) := by
  cases a with
  | fieldSelect v =>
    intro _
    rw [show applyAction env (.fieldSelect v) s = on_field_select env v s from rfl,
      on_field_select, on_load_edit_text]
  | changeSample =>
    intro _
    rw [show applyAction env .changeSample s = on_change_current_sample env s from rfl,
      on_change_current_sample, on_load_edit_text]
  | editClick =>
    intro hm
    exact absurd hm (by simp [applyAction, on_edit_click])
  | saveEdit =>
    show EditInv (on_save_edit env s)
    unfold on_save_edit
    repeat' split
    all_goals first
      | exact h
      | exact fun _ => rfl
  | cancelEdit =>
    intro _
    rfl
  | load =>
    show EditInv (on_load env s)
    intro hm
    rw [on_load_edit_text]
    exact h (by rw [← on_load_edit_mode env s]; exact hm)

theorem runActions_inv (steps : List (Env × Action)) (s : PanelState)
    (h : EditInv s) : EditInv (runActions steps s) := by
  induction steps generalizing s with
  | nil => exact h
  | cons p rest ih => exact ih _ (applyAction_inv p.1 p.2 s h)

theorem list_pair_induction {P : List Char → Prop} (h0 : P []) (h1 : ∀ c, P [c])
    (h2 : ∀ c d rest, P (d :: rest) → P rest → P (c :: d :: rest)) : ∀ l, P l
  | [] => h0
  | [c] => h1 c
  | c :: d :: rest =>
    h2 c d rest (list_pair_induction h0 h1 h2 (d :: rest)) (list_pair_induction h0 h1 h2 rest)

theorem contains2_cons_cons (a b c d : Char) (t : List Char) :
    contains2 a b (c :: d :: t) = ((c == a && d == b) || contains2 a b (d :: t)) := rfl

theorem contains2_split (a b c d : Char) (t : List Char)
    (h : contains2 a b (c :: d :: t) = false) :
    (c == a && d == b) = false ∧ contains2 a b (d :: t) = false := by
  rw [contains2_cons_cons] at h
  exact ⟨by rcases Bool.or_eq_false_iff.mp h with ⟨h1, _⟩; exact h1,
    by rcases Bool.or_eq_false_iff.mp h with ⟨_, h2⟩; exact h2⟩

theorem contains2_tail (a b d : Char) (t : List Char)
    (h : contains2 a b (d :: t) = false) : contains2 a b t = false := by
  cases t with
  | nil => rfl
  | cons y t2 => exact (contains2_split a b d y t2 h).2

theorem replace2_head (a b r : Char) (l : List Char) :
    (replace2 a b r l).head? = l.head? ∨ (replace2 a b r l).head? = some r := by
  induction l using list_pair_induction with
  | h0 => left; rfl
  | h1 c => left; rfl
  | h2 c d rest ih1 ih2 =>
    by_cases h : (c == a && d == b) = true
    · right; simp [replace2, h]
    · left; simp [replace2, h]

theorem replace2_no_occ (a b r : Char) (ha : (r == a) = false) (hb : (r == b) = false)
    (l : List Char) : contains2 a b (replace2 a b r l) = false := by
  induction l using list_pair_induction with
  | h0 => rfl
  | h1 c => rfl
  | h2 c d rest ih1 ih2 =>
    by_cases h : (c == a && d == b) = true
    · rw [show replace2 a b r (c :: d :: rest) = r :: replace2 a b r rest from by
        simp [replace2, h]]
      cases hX : replace2 a b r rest with
      | nil => rfl
      | cons y t =>
        rw [contains2_cons_cons, ha]
        simp only [Bool.false_and, Bool.false_or]
        rw [← hX]
        exact ih2
    · rw [show replace2 a b r (c :: d :: rest) = c :: replace2 a b r (d :: rest) from by
        simp [replace2, h]]
      cases hX : replace2 a b r (d :: rest) with
      | nil => rfl
      | cons y t =>
        rw [contains2_cons_cons]
        have hhead := replace2_head a b r (d :: rest)
        rw [hX] at hhead
        have hfst : (c == a && y == b) = false := by
          rcases hhead with h1 | h1
          · have hy : y = d := by simpa using h1
            rw [hy]
            exact Bool.eq_false_iff.mpr h
          · have hy : y = r := by simpa using h1
            rw [hy, hb, Bool.and_false]
        rw [hfst, Bool.false_or, ← hX]
        exact ih1

theorem replace2_preserve (a b a2 b2 r : Char) (ha : (r == a) = false)
    (hb : (r == b) = false) (l : List Char) (h : contains2 a b l = false) :
    contains2 a b (replace2 a2 b2 r l) = false := by
  induction l using list_pair_induction with
  | h0 => rfl
  | h1 c => rfl
  | h2 c d rest ih1 ih2 =>
    obtain ⟨hcd, hrest⟩ := contains2_split a b c d rest h
    by_cases hm : (c == a2 && d == b2) = true
    · rw [show replace2 a2 b2 r (c :: d :: rest) = r :: replace2 a2 b2 r rest from by
        simp [replace2, hm]]
      cases hX : replace2 a2 b2 r rest with
      | nil => rfl
      | cons y t =>
        rw [contains2_cons_cons, ha]
        simp only [Bool.false_and, Bool.false_or]
        rw [← hX]
        exact ih2 (contains2_tail a b d rest hrest)
    · rw [show replace2 a2 b2 r (c :: d :: rest) = c :: replace2 a2 b2 r (d :: rest) from by
        simp [replace2, hm]]
      cases hX : replace2 a2 b2 r (d :: rest) with
      | nil => rfl
      | cons y t =>
        rw [contains2_cons_cons]
        have hhead := replace2_head a2 b2 r (d :: rest)
        rw [hX] at hhead
        have hfst : (c == a && y == b) = false := by
          rcases hhead with h1 | h1
          · have hy : y = d := by simpa using h1
            rw [hy]
            exact hcd
          · have hy : y = r := by simpa using h1
            rw [hy, hb, Bool.and_false]
        rw [hfst, Bool.false_or, ← hX]
        exact ih1 hrest

theorem replace2_id_of_no_occ (a b r : Char) (l : List Char)
    (h : contains2 a b l = false) : replace2 a b r l = l := by
  induction l using list_pair_induction with
  | h0 => rfl
  | h1 c => rfl
  | h2 c d rest ih1 ih2 =>
    obtain ⟨hcd, hrest⟩ := contains2_split a b c d rest h
    rw [show replace2 a b r (c :: d :: rest) = c :: replace2 a b r (d :: rest) from by
      simp [replace2, hcd], ih1 hrest]

theorem guardedReplace_no_occ (a b r : Char) (ha : (r == a) = false)
    (hb : (r == b) = false) (l : List Char) :
    contains2 a b (guardedReplace a b r l) = false := by
  unfold guardedReplace
  by_cases h : contains2 a b l = true
  · rw [if_pos h]
    exact replace2_no_occ a b r ha hb l
  · rw [if_neg h]
    simpa using h

theorem guardedReplace_preserve (a b a2 b2 r : Char) (ha : (r == a) = false)
    (hb : (r == b) = false) (l : List Char) (h : contains2 a b l = false) :
    contains2 a b (guardedReplace a2 b2 r l) = false := by
  unfold guardedReplace
  by_cases hg : contains2 a2 b2 l = true
  · rw [if_pos hg]
    exact replace2_preserve a b a2 b2 r ha hb l h
  · rw [if_neg hg]
    exact h

theorem guardedReplace_eq_replace2 (a b r : Char) (l : List Char) :
    guardedReplace a b r l = replace2 a b r l := by
  unfold guardedReplace
  by_cases h : contains2 a b l = true
  · rw [if_pos h]
  · rw [if_neg h]
    exact (replace2_id_of_no_occ a b r l (by simpa using h)).symm

theorem resolveL_no_literals (cs : List Char) :
    contains2 bslash 'n' (resolveL cs) = false ∧
    contains2 bslash 't' (resolveL cs) = false ∧
    contains2 bslash 'r' (resolveL cs) = false := by
  unfold resolveL
  refine ⟨?_, ?_, ?_⟩
  · exact guardedReplace_preserve bslash 'n' bslash 'r' '\r' (by decide) (by decide) _
      (guardedReplace_preserve bslash 'n' bslash 't' '\t' (by decide) (by decide) _
        (guardedReplace_no_occ bslash 'n' '\n' (by decide) (by decide) cs))
  · exact guardedReplace_preserve bslash 't' bslash 'r' '\r' (by decide) (by decide) _
      (guardedReplace_no_occ bslash 't' '\t' (by decide) (by decide) _)
  · exact guardedReplace_no_occ bslash 'r' '\r' (by decide) (by decide) _

theorem guardedReplace_id (a b r : Char) (l : List Char)
    (h : contains2 a b l = false) : guardedReplace a b r l = l := by
  unfold guardedReplace
  rw [if_neg (by simp [h])]

theorem resolveL_idem (cs : List Char) : resolveL (resolveL cs) = resolveL cs := by
  obtain ⟨h1, h2, h3⟩ := resolveL_no_literals cs
  show guardedReplace bslash 'r' '\r'
      (guardedReplace bslash 't' '\t' (guardedReplace bslash 'n' '\n' (resolveL cs)))
    = resolveL cs
  rw [guardedReplace_id bslash 'n' '\n' _ h1, guardedReplace_id bslash 't' '\t' _ h2,
    guardedReplace_id bslash 'r' '\r' _ h3]

theorem resolveL_eq_chain (cs : List Char) :
    resolveL cs
      = replace2 bslash 'r' '\r' (replace2 bslash 't' '\t' (replace2 bslash 'n' '\n' cs)) := by
  unfold resolveL
  rw [guardedReplace_eq_replace2, guardedReplace_eq_replace2, guardedReplace_eq_replace2]

theorem ciEq_refl (c : Char) : ciEq c c = true := by
  simp [ciEq]

theorem ciStarts_self_append (pat rest : List Char) :
    ciStarts pat (pat ++ rest) = true := by
  induction pat with
  | nil => rfl
  | cons p ps ih => simp [ciStarts, ciEq_refl, ih]

theorem ciStarts_split (t : List Char) : ∀ (pat u : List Char),
    ciStarts pat (t ++ u)
      = (ciStarts (pat.take t.length) t && ciStarts (pat.drop t.length) u) := by
  induction t with
  | nil => intro pat u; simp [ciStarts]
  | cons x t' ih =>
    intro pat u
    cases pat with
    | nil => simp [ciStarts]
    | cons p ps =>
      show (ciEq p x && ciStarts ps (t' ++ u)) = _
      rw [List.length_cons, List.take_succ_cons, List.drop_succ_cons, ih ps u]
      show _ = ((ciEq p x && ciStarts (ps.take t'.length) t')
        && ciStarts (ps.drop t'.length) u)
      rw [Bool.and_assoc]

theorem ciStarts_append_left (pat t u : List Char) (h : pat.length ≤ t.length) :
    ciStarts pat (t ++ u) = ciStarts pat t := by
  rw [ciStarts_split, List.take_of_length_le h, List.drop_eq_nil_of_le h]
  show (ciStarts pat t && true) = _
  rw [Bool.and_true]

theorem hasSubCI_cons_split (pat : List Char) (c : Char) (cs : List Char)
    (h : hasSubCI pat (c :: cs) = false) :
    ciStarts pat (c :: cs) = false ∧ hasSubCI pat cs = false := by
  rw [show hasSubCI pat (c :: cs) = (ciStarts pat (c :: cs) || hasSubCI pat cs) from rfl]
    at h
  exact Bool.or_eq_false_iff.mp h

theorem ciStarts_seam_false (pt : List Char)
    (hpt : pt.all (fun c => !ciEq c '<') = true) (t z : List Char) (ht : t ≠ [])
    (hsub : hasSubCI ('<' :: pt) t = false) :
    ciStarts ('<' :: pt) (t ++ '<' :: z) = false := by
  rcases Nat.lt_or_ge t.length ('<' :: pt).length with hlt | hge
  · rw [ciStarts_split]
    have htpos : 1 ≤ t.length := List.length_pos.mpr ht
    obtain ⟨m, hm⟩ : ∃ m, t.length = m + 1 := ⟨t.length - 1, by omega⟩
    have hmlt : m < pt.length := by
      rw [List.length_cons] at hlt
      omega
    have hdrop : ('<' :: pt).drop t.length = pt.drop m := by
      rw [hm, List.drop_succ_cons]
    cases hd : pt.drop m with
    | nil =>
      have : pt.length - m = 0 := by
        have := List.length_drop m pt
        rw [hd] at this
        simpa using this.symm
      omega
    | cons h0 tl =>
      have hmem : h0 ∈ pt := List.drop_subset m pt (hd ▸ List.mem_cons_self h0 tl)
      have hne : ciEq h0 '<' = false := by
        have := List.all_eq_true.mp hpt h0 hmem
        simpa using this
      rw [hdrop, hd,
        show ciStarts (h0 :: tl) ('<' :: z) = (ciEq h0 '<' && ciStarts tl z) from rfl,
        hne, Bool.false_and, Bool.and_false]
  · rw [ciStarts_append_left _ _ _ hge]
    cases t with
    | nil => exact absurd rfl ht
    | cons c cs => exact (hasSubCI_cons_split _ c cs hsub).1

theorem findCI_seam (pt : List Char)
    (hpt : pt.all (fun c => !ciEq c '<') = true) :
    ∀ body rest, hasSubCI ('<' :: pt) body = false →
      findCI ('<' :: pt) (body ++ ('<' :: pt) ++ rest) = some body.length := by
  intro body
  induction body with
  | nil =>
    intro rest _
    show findCI ('<' :: pt) (('<' :: pt) ++ rest) = some 0
    rw [show ('<' :: pt) ++ rest = '<' :: (pt ++ rest) from rfl]
    rw [show findCI ('<' :: pt) ('<' :: (pt ++ rest))
      = if ciStarts ('<' :: pt) ('<' :: (pt ++ rest)) then some 0
        else (findCI ('<' :: pt) (pt ++ rest)).map (· + 1) from rfl]
    rw [if_pos]
    exact ciStarts_self_append ('<' :: pt) rest
  | cons c body' ih =>
    intro rest hsub
    obtain ⟨h1, h2⟩ := hasSubCI_cons_split _ c body' hsub
    have hcs : ciStarts ('<' :: pt) ((c :: body') ++ '<' :: (pt ++ rest)) = false :=
      ciStarts_seam_false pt hpt (c :: body') (pt ++ rest) (by simp) hsub
    rw [show (c :: body') ++ ('<' :: pt) ++ rest = c :: (body' ++ ('<' :: pt) ++ rest) from by
      simp]
    rw [show findCI ('<' :: pt) (c :: (body' ++ ('<' :: pt) ++ rest))
      = if ciStarts ('<' :: pt) (c :: (body' ++ ('<' :: pt) ++ rest)) then some 0
        else (findCI ('<' :: pt) (body' ++ ('<' :: pt) ++ rest)).map (· + 1) from rfl]
    rw [if_neg (by simpa [List.append_assoc] using hcs), ih rest h2]
    rfl

theorem tableOpen_shape : tableOpen = '<' :: "table".toList := rfl

theorem tableClose_shape : tableClose = '<' :: "/table>".toList := rfl

theorem tableMatch_pos (cs : List Char) (k : Nat) (h : tableMatch cs = some k) :
    1 ≤ k := by
  unfold tableMatch at h
  by_cases hc : ciStarts tableOpen cs = true
  · rw [if_pos hc] at h
    cases hf : findCI tableClose (cs.drop 6) with
    | none => rw [hf] at h; cases h
    | some j =>
      rw [hf] at h
      have := Option.some.inj h
      omega
  · rw [if_neg hc] at h
    cases h

theorem convertTablesF_norm (rep : List Char → List Char) :
    ∀ fuel cs, cs.length ≤ fuel →
      convertTablesF rep fuel cs = convertTablesF rep cs.length cs := by
  intro fuel
  induction fuel using Nat.strong_induction_on with
  | _ fuel ih =>
    intro cs hle
    cases fuel with
    | zero =>
      have hcs : cs = [] := List.eq_nil_of_length_eq_zero (Nat.le_zero.mp hle)
      rw [hcs]
      rfl
    | succ f =>
      cases cs with
      | nil => rfl
      | cons c cs' =>
        rw [List.length_cons] at hle ⊢
        cases hm : tableMatch (c :: cs') with
        | some k =>
          have hk : 1 ≤ k := tableMatch_pos _ _ hm
          rw [show convertTablesF rep (f + 1) (c :: cs')
              = rep ((c :: cs').take k) ++ convertTablesF rep f ((c :: cs').drop k) from by
            simp only [convertTablesF, hm]]
          rw [show convertTablesF rep (cs'.length + 1) (c :: cs')
              = rep ((c :: cs').take k)
                ++ convertTablesF rep cs'.length ((c :: cs').drop k) from by
            simp only [convertTablesF, hm]]
          have hdlen : ((c :: cs').drop k).length = cs'.length + 1 - k := by
            rw [List.length_drop, List.length_cons]
          rw [ih f (by omega) _ (by omega), ih cs'.length (by omega) _ (by omega)]
        | none =>
          rw [show convertTablesF rep (f + 1) (c :: cs')
              = c :: convertTablesF rep f cs' from by simp only [convertTablesF, hm]]
          rw [show convertTablesF rep (cs'.length + 1) (c :: cs')
              = c :: convertTablesF rep cs'.length cs' from by
            simp only [convertTablesF, hm]]
          rw [ih f (by omega) cs' (by omega)]

theorem convertTablesL_cons_none (rep : List Char → List Char) (c : Char)
    (cs : List Char) (h : tableMatch (c :: cs) = none) :
    convertTablesL rep (c :: cs) = c :: convertTablesL rep cs := by
  unfold convertTablesL
  rw [List.length_cons]
  simp only [convertTablesF, h]

theorem convertTablesL_cons_some (rep : List Char → List Char) (c : Char)
    (cs : List Char) (k : Nat) (hm : tableMatch (c :: cs) = some k) :
    convertTablesL rep (c :: cs)
      = rep ((c :: cs).take k) ++ convertTablesL rep ((c :: cs).drop k) := by
  have hk : 1 ≤ k := tableMatch_pos _ _ hm
  unfold convertTablesL
  rw [List.length_cons]
  simp only [convertTablesF, hm]
  congr 1
  have hdlen : ((c :: cs).drop k).length = cs.length + 1 - k := by
    rw [List.length_drop, List.length_cons]
  exact convertTablesF_norm rep cs.length _ (by omega)

theorem convertTablesL_step_some (rep : List Char → List Char) (l : List Char)
    (k : Nat) (hm : tableMatch l = some k) (hl : l ≠ []) :
    convertTablesL rep l = rep (l.take k) ++ convertTablesL rep (l.drop k) := by
  cases l with
  | nil => exact absurd rfl hl
  | cons c cs => exact convertTablesL_cons_some rep c cs k hm

theorem tableMatch_at_span (mid post : List Char)
    (hmid : hasSubCI tableClose mid = false) :
    tableMatch (tableOpen ++ (mid ++ (tableClose ++ post))) = some (6 + mid.length + 8) := by
  unfold tableMatch
  rw [if_pos (ciStarts_self_append tableOpen (mid ++ (tableClose ++ post)))]
  rw [show (6 : Nat) = tableOpen.length from rfl, List.drop_left]
  have hf := findCI_seam "/table>".toList (by decide) mid post
    (by rw [← tableClose_shape]; exact hmid)
  rw [← tableClose_shape] at hf
  rw [show mid ++ (tableClose ++ post) = mid ++ tableClose ++ post from by simp, hf]

theorem tableMatch_none_pre (c : Char) (pre z : List Char)
    (hpre : hasSubCI tableOpen (c :: pre) = false) :
    tableMatch ((c :: pre) ++ '<' :: z) = none := by
  unfold tableMatch
  rw [if_neg]
  intro hc
  have := ciStarts_seam_false "table".toList (by decide) (c :: pre) z (by simp)
    (by rw [← tableOpen_shape]; exact hpre)
  rw [← tableOpen_shape] at this
  rw [this] at hc
  cases hc

theorem convertTables_seam (rep : List Char → List Char) (pre mid post : List Char)
    (hpre : hasSubCI tableOpen pre = false) (hmid : hasSubCI tableClose mid = false) :
    convertTablesL rep (pre ++ (tableOpen ++ mid ++ tableClose) ++ post)
      = pre ++ rep (tableOpen ++ mid ++ tableClose) ++ convertTablesL rep post := by
  induction pre with
  | nil =>
    simp only [List.nil_append]
    have hspanlen : (tableOpen ++ mid ++ tableClose).length = 6 + mid.length + 8 := by
      simp [List.length_append]
      rw [show tableOpen.length = 6 from rfl, show tableClose.length = 8 from rfl]
      omega
    have hm : tableMatch ((tableOpen ++ mid ++ tableClose) ++ post)
        = some (6 + mid.length + 8) := by
      rw [show (tableOpen ++ mid ++ tableClose) ++ post
        = tableOpen ++ (mid ++ (tableClose ++ post)) from by simp]
      exact tableMatch_at_span mid post hmid
    rw [convertTablesL_step_some rep _ _ hm (by rw [tableOpen_shape]; simp)]
    rw [show ((tableOpen ++ mid ++ tableClose) ++ post).take (6 + mid.length + 8)
      = tableOpen ++ mid ++ tableClose from by rw [← hspanlen, List.take_left]]
    rw [show ((tableOpen ++ mid ++ tableClose) ++ post).drop (6 + mid.length + 8)
      = post from by rw [← hspanlen, List.drop_left]]
  | cons c pre' ih =>
    obtain ⟨h1, h2⟩ := hasSubCI_cons_split _ c pre' hpre
    have hnone : tableMatch ((c :: pre') ++ ('<' :: ("table".toList ++ mid
        ++ tableClose ++ post))) = none := tableMatch_none_pre c pre' _ hpre
    rw [show (c :: pre') ++ (tableOpen ++ mid ++ tableClose) ++ post
      = c :: (pre' ++ (tableOpen ++ mid ++ tableClose) ++ post) from by simp]
    rw [convertTablesL_cons_none rep c _ (by
      rw [show pre' ++ (tableOpen ++ mid ++ tableClose) ++ post
        = pre' ++ '<' :: ("table".toList ++ mid ++ tableClose ++ post) from by
        rw [tableOpen_shape]; simp]
      rw [show c :: (pre' ++ '<' :: ("table".toList ++ mid ++ tableClose ++ post))
        = (c :: pre') ++ '<' :: ("table".toList ++ mid ++ tableClose ++ post) from rfl]
      have := tableMatch_none_pre c pre'
        ("table".toList ++ mid ++ tableClose ++ post) hpre
      simpa using this)]
    rw [ih h2]
    simp

theorem scriptOpen_shape : scriptOpen = '<' :: "script".toList := rfl

theorem scriptClose_shape : scriptClose = '<' :: "/script>".toList := rfl

theorem scriptMatch_pos (cs : List Char) (k : Nat) (h : scriptMatch cs = some k) :
    1 ≤ k := by
  unfold scriptMatch at h
  by_cases hc : ciStarts scriptOpen cs = true
  · rw [if_pos hc] at h
    cases hi : findCharIdx (· == '>') (cs.drop 7) with
    | none =>
      rw [hi] at h
      have h2 : (none : Option Nat) = some k := h
      cases h2
    | some i =>
      rw [hi] at h
      have h2 : (match findCI scriptClose ((cs.drop 7).drop (i + 1)) with
        | none => none
        | some j => some (7 + i + 1 + j + 9)) = some k := h
      cases hj : findCI scriptClose ((cs.drop 7).drop (i + 1)) with
      | none =>
        rw [hj] at h2
        have h3 : (none : Option Nat) = some k := h2
        cases h3
      | some j =>
        rw [hj] at h2
        have h3 : some (7 + i + 1 + j + 9) = some k := h2
        have := Option.some.inj h3
        omega
  · rw [if_neg hc] at h
    cases h

theorem removeScriptsF_norm :
    ∀ fuel cs, cs.length ≤ fuel →
      removeScriptsF fuel cs = removeScriptsF cs.length cs := by
  intro fuel
  induction fuel using Nat.strong_induction_on with
  | _ fuel ih =>
    intro cs hle
    cases fuel with
    | zero =>
      have hcs : cs = [] := List.eq_nil_of_length_eq_zero (Nat.le_zero.mp hle)
      rw [hcs]
      rfl
    | succ f =>
      cases cs with
      | nil => rfl
      | cons c cs' =>
        rw [List.length_cons] at hle ⊢
        cases hm : scriptMatch (c :: cs') with
        | some k =>
          have hk : 1 ≤ k := scriptMatch_pos _ _ hm
          rw [show removeScriptsF (f + 1) (c :: cs')
              = removeScriptsF f ((c :: cs').drop k) from by
            simp only [removeScriptsF, hm]]
          rw [show removeScriptsF (cs'.length + 1) (c :: cs')
              = removeScriptsF cs'.length ((c :: cs').drop k) from by
            simp only [removeScriptsF, hm]]
          have hdlen : ((c :: cs').drop k).length = cs'.length + 1 - k := by
            rw [List.length_drop, List.length_cons]
          rw [ih f (by omega) _ (by omega), ih cs'.length (by omega) _ (by omega)]
        | none =>
          rw [show removeScriptsF (f + 1) (c :: cs')
              = c :: removeScriptsF f cs' from by simp only [removeScriptsF, hm]]
          rw [show removeScriptsF (cs'.length + 1) (c :: cs')
              = c :: removeScriptsF cs'.length cs' from by simp only [removeScriptsF, hm]]
          rw [ih f (by omega) cs' (by omega)]

theorem removeScripts_cons_none (c : Char) (cs : List Char)
    (h : scriptMatch (c :: cs) = none) :
    removeScripts (c :: cs) = c :: removeScripts cs := by
  unfold removeScripts
  rw [List.length_cons]
  simp only [removeScriptsF, h]

theorem removeScripts_cons_some (c : Char) (cs : List Char) (k : Nat)
    (hm : scriptMatch (c :: cs) = some k) :
    removeScripts (c :: cs) = removeScripts ((c :: cs).drop k) := by
  have hk : 1 ≤ k := scriptMatch_pos _ _ hm
  unfold removeScripts
  rw [List.length_cons]
  simp only [removeScriptsF, hm]
  have hdlen : ((c :: cs).drop k).length = cs.length + 1 - k := by
    rw [List.length_drop, List.length_cons]
  exact removeScriptsF_norm cs.length _ (by omega)

theorem removeScripts_step_some (l : List Char) (k : Nat)
    (hm : scriptMatch l = some k) (hl : l ≠ []) :
    removeScripts l = removeScripts (l.drop k) := by
  cases l with
  | nil => exact absurd rfl hl
  | cons c cs => exact removeScripts_cons_some c cs k hm

theorem findCharIdx_append (p : Char → Bool) (l : List Char) (q : Char)
    (rest : List Char) (hl : ∀ c ∈ l, p c = false) (hq : p q = true) :
    findCharIdx p (l ++ q :: rest) = some l.length := by
  induction l with
  | nil =>
    show (if p q then some 0 else (findCharIdx p rest).map (· + 1)) = some 0
    rw [if_pos hq]
  | cons c l' ih =>
    show (if p c then some 0 else (findCharIdx p (l' ++ q :: rest)).map (· + 1))
      = some (l'.length + 1)
    rw [if_neg (by simp [hl c (by simp)]), ih (fun c hc => hl c (by simp [hc]))]
    rfl

theorem scriptMatch_at_span (attrs body post : List Char)
    (hattrs : ∀ c ∈ attrs, (c == '>') = false)
    (hbody : hasSubCI scriptClose body = false) :
    scriptMatch (scriptOpen ++ (attrs ++ '>' :: (body ++ (scriptClose ++ post))))
      = some (7 + attrs.length + 1 + body.length + 9) := by
  unfold scriptMatch
  rw [if_pos (ciStarts_self_append scriptOpen _)]
  rw [show (scriptOpen ++ (attrs ++ '>' :: (body ++ (scriptClose ++ post)))).drop 7
      = attrs ++ '>' :: (body ++ (scriptClose ++ post)) from by
    rw [show (7 : Nat) = scriptOpen.length from rfl, List.drop_left]]
  rw [findCharIdx_append (· == '>') attrs '>' _ hattrs (by decide)]
  show (match findCI scriptClose
      ((attrs ++ '>' :: (body ++ (scriptClose ++ post))).drop (attrs.length + 1)) with
    | none => none
    | some j => some (7 + attrs.length + 1 + j + 9))
    = some (7 + attrs.length + 1 + body.length + 9)
  rw [show (attrs ++ '>' :: (body ++ (scriptClose ++ post))).drop (attrs.length + 1)
      = body ++ (scriptClose ++ post) from by
    rw [show attrs ++ '>' :: (body ++ (scriptClose ++ post))
      = (attrs ++ ['>']) ++ (body ++ (scriptClose ++ post)) from by simp]
    rw [show attrs.length + 1 = (attrs ++ ['>']).length from by
      simp [List.length_append]]
    rw [List.drop_left]]
  have hf := findCI_seam "/script>".toList (by decide) body post
    (by rw [← scriptClose_shape]; exact hbody)
  rw [← scriptClose_shape] at hf
  rw [show body ++ (scriptClose ++ post) = body ++ scriptClose ++ post from by simp, hf]

theorem scriptMatch_none_pre (c : Char) (pre z : List Char)
    (hpre : hasSubCI scriptOpen (c :: pre) = false) :
    scriptMatch ((c :: pre) ++ '<' :: z) = none := by
  unfold scriptMatch
  rw [if_neg]
  intro hc
  have := ciStarts_seam_false "script".toList (by decide) (c :: pre) z (by simp)
    (by rw [← scriptOpen_shape]; exact hpre)
  rw [← scriptOpen_shape] at this
  rw [this] at hc
  cases hc

theorem removeScripts_seam (pre attrs body post : List Char)
    (hpre : hasSubCI scriptOpen pre = false)
    (hattrs : ∀ c ∈ attrs, (c == '>') = false)
    (hbody : hasSubCI scriptClose body = false) :
    removeScripts (pre ++ (scriptOpen ++ attrs ++ '>' :: body ++ scriptClose) ++ post)
      = pre ++ removeScripts post := by
  induction pre with
  | nil =>
    simp only [List.nil_append]
    have hspanlen : (scriptOpen ++ attrs ++ '>' :: body ++ scriptClose).length
        = 7 + attrs.length + 1 + body.length + 9 := by
      rw [List.length_append, List.length_append, List.length_append,
        show scriptOpen.length = 7 from rfl, show scriptClose.length = 9 from rfl,
        List.length_cons]
      omega
    have hm : scriptMatch ((scriptOpen ++ attrs ++ '>' :: body ++ scriptClose) ++ post)
        = some (7 + attrs.length + 1 + body.length + 9) := by
      rw [show (scriptOpen ++ attrs ++ '>' :: body ++ scriptClose) ++ post
        = scriptOpen ++ (attrs ++ '>' :: (body ++ (scriptClose ++ post))) from by simp]
      exact scriptMatch_at_span attrs body post hattrs hbody
    rw [removeScripts_step_some _ _ hm (by rw [scriptOpen_shape]; simp)]
    rw [show ((scriptOpen ++ attrs ++ '>' :: body ++ scriptClose) ++ post).drop
        (7 + attrs.length + 1 + body.length + 9)
      = post from by rw [← hspanlen, List.drop_left]]
  | cons c pre' ih =>
    obtain ⟨h1, h2⟩ := hasSubCI_cons_split _ c pre' hpre
    rw [show (c :: pre') ++ (scriptOpen ++ attrs ++ '>' :: body ++ scriptClose) ++ post
      = c :: (pre' ++ (scriptOpen ++ attrs ++ '>' :: body ++ scriptClose) ++ post) from by
      simp]
    rw [removeScripts_cons_none c _ (by
      rw [show pre' ++ (scriptOpen ++ attrs ++ '>' :: body ++ scriptClose) ++ post
        = pre' ++ '<' :: ("script".toList ++ attrs ++ '>' :: body ++ scriptClose ++ post)
        from by rw [scriptOpen_shape]; simp]
      rw [show c :: (pre'
          ++ '<' :: ("script".toList ++ attrs ++ '>' :: body ++ scriptClose ++ post))
        = (c :: pre')
          ++ '<' :: ("script".toList ++ attrs ++ '>' :: body ++ scriptClose ++ post)
        from rfl]
      exact scriptMatch_none_pre c pre' _ hpre)]
    rw [ih h2]
    simp

theorem countWhile_cons_true (p : Char → Bool) (c : Char) (cs : List Char)
    (h : p c = true) : countWhile p (c :: cs) = countWhile p cs + 1 := by
  show (if p c then countWhile p cs + 1 else 0) = countWhile p cs + 1
  rw [if_pos h]

theorem countWhile_cons_false (p : Char → Bool) (c : Char) (cs : List Char)
    (h : p c = false) : countWhile p (c :: cs) = 0 := by
  show (if p c then countWhile p cs + 1 else 0) = 0
  rw [if_neg (by simp [h])]

theorem countWhile_append_all (p : Char → Bool) (l z : List Char)
    (h : ∀ c ∈ l, p c = true) : countWhile p (l ++ z) = l.length + countWhile p z := by
  induction l with
  | nil => simp
  | cons c l' ih =>
    rw [List.cons_append, countWhile_cons_true p c _ (h c (by simp)),
      ih (fun c hc => h c (by simp [hc])), List.length_cons]
    omega

theorem countWhile_not_all (p : Char → Bool) (l z : List Char)
    (h : ∃ c ∈ l, p c = false) :
    countWhile p (l ++ z) = countWhile p l ∧ countWhile p l < l.length := by
  induction l with
  | nil =>
    obtain ⟨c, hc, _⟩ := h
    cases hc
  | cons c l' ih =>
    by_cases hc : p c = true
    · have hl' : ∃ d ∈ l', p d = false := by
        obtain ⟨d, hd, hpd⟩ := h
        rcases List.mem_cons.mp hd with rfl | hd'
        · rw [hc] at hpd; cases hpd
        · exact ⟨d, hd', hpd⟩
      obtain ⟨ih1, ih2⟩ := ih hl'
      rw [List.cons_append, countWhile_cons_true p c _ hc, countWhile_cons_true p c _ hc,
        ih1, List.length_cons]
      exact ⟨rfl, by omega⟩
    · have hc' : p c = false := by simpa using hc
      rw [List.cons_append, countWhile_cons_false p c _ hc', countWhile_cons_false p c _ hc',
        List.length_cons]
      exact ⟨rfl, by omega⟩

theorem countWhile_drop_head (p : Char → Bool) (l : List Char)
    (h : countWhile p l < l.length) :
    ∃ h0 tl, l.drop (countWhile p l) = h0 :: tl ∧ p h0 = false := by
  induction l with
  | nil => cases h
  | cons c l' ih =>
    by_cases hc : p c = true
    · rw [countWhile_cons_true p c _ hc] at h ⊢
      rw [List.length_cons] at h
      obtain ⟨h0, tl, hdrop, hp⟩ := ih (by omega)
      exact ⟨h0, tl, by rw [List.drop_succ_cons]; exact hdrop, hp⟩
    · have hc' : p c = false := by simpa using hc
      rw [countWhile_cons_false p c _ hc']
      exact ⟨c, l', rfl, hc'⟩

theorem hasSubCI_drop_false (pat : List Char) (hne : pat ≠ []) :
    ∀ (l : List Char), hasSubCI pat l = false → ∀ n, ciStarts pat (l.drop n) = false := by
  intro l
  induction l with
  | nil =>
    intro _ n
    rw [List.drop_nil]
    cases pat with
    | nil => exact absurd rfl hne
    | cons p ps => rfl
  | cons c cs ih =>
    intro h n
    obtain ⟨h1, h2⟩ := hasSubCI_cons_split pat c cs h
    cases n with
    | zero => exact h1
    | succ m =>
      rw [List.drop_succ_cons]
      exact ih h2 m

theorem handlerMatch_pos (cs : List Char) (k : Nat) (h : handlerMatch cs = some k) :
    1 ≤ k := by
  unfold handlerMatch at h
  by_cases hc : ciStarts ['o', 'n'] (afterWs cs) = true
  · rw [if_pos hc] at h
    by_cases hw : countWhile isWordChar ((afterWs cs).drop 2) = 0
    · rw [if_pos hw] at h
      cases h
    · rw [if_neg hw] at h
      obtain ⟨m, _, hk⟩ := Option.map_eq_some'.mp h
      omega
  · rw [if_neg hc] at h
    cases h

theorem removeHandlersF_norm :
    ∀ fuel cs, cs.length ≤ fuel →
      removeHandlersF fuel cs = removeHandlersF cs.length cs := by
  intro fuel
  induction fuel using Nat.strong_induction_on with
  | _ fuel ih =>
    intro cs hle
    cases fuel with
    | zero =>
      have hcs : cs = [] := List.eq_nil_of_length_eq_zero (Nat.le_zero.mp hle)
      rw [hcs]
      rfl
    | succ f =>
      cases cs with
      | nil => rfl
      | cons c cs' =>
        rw [List.length_cons] at hle ⊢
        cases hm : handlerMatch (c :: cs') with
        | some k =>
          have hk : 1 ≤ k := handlerMatch_pos _ _ hm
          rw [show removeHandlersF (f + 1) (c :: cs')
              = removeHandlersF f ((c :: cs').drop k) from by
            simp only [removeHandlersF, hm]]
          rw [show removeHandlersF (cs'.length + 1) (c :: cs')
              = removeHandlersF cs'.length ((c :: cs').drop k) from by
            simp only [removeHandlersF, hm]]
          have hdlen : ((c :: cs').drop k).length = cs'.length + 1 - k := by
            rw [List.length_drop, List.length_cons]
          rw [ih f (by omega) _ (by omega), ih cs'.length (by omega) _ (by omega)]
        | none =>
          rw [show removeHandlersF (f + 1) (c :: cs')
              = c :: removeHandlersF f cs' from by simp only [removeHandlersF, hm]]
          rw [show removeHandlersF (cs'.length + 1) (c :: cs')
              = c :: removeHandlersF cs'.length cs' from by simp only [removeHandlersF, hm]]
          rw [ih f (by omega) cs' (by omega)]

theorem removeHandlers_cons_none (c : Char) (cs : List Char)
    (h : handlerMatch (c :: cs) = none) :
    removeHandlers (c :: cs) = c :: removeHandlers cs := by
  unfold removeHandlers
  rw [List.length_cons]
  simp only [removeHandlersF, h]

theorem removeHandlers_step_some (l : List Char) (k : Nat)
    (hm : handlerMatch l = some k) (hl : l ≠ []) :
    removeHandlers l = removeHandlers (l.drop k) := by
  cases l with
  | nil => exact absurd rfl hl
  | cons c cs =>
    have hk : 1 ≤ k := handlerMatch_pos _ _ hm
    unfold removeHandlers
    rw [List.length_cons]
    simp only [removeHandlersF, hm]
    have hdlen : ((c :: cs).drop k).length = cs.length + 1 - k := by
      rw [List.length_drop, List.length_cons]
    exact removeHandlersF_norm cs.length _ (by omega)

theorem handlerQuoted_at (v post : List Char) (hv : ∀ c ∈ v, isQuoteChar c = false) :
    handlerQuoted (v ++ dquote :: post) = some (v.length + 1) := by
  unfold handlerQuoted
  have hcv : countWhile (fun c => !isQuoteChar c) (v ++ dquote :: post) = v.length := by
    rw [countWhile_append_all _ v _ (fun c hc => by simp [hv c hc]),
      countWhile_cons_false _ _ _ (by decide)]
    omega
  rw [hcv, List.drop_left]
  show (if isQuoteChar dquote then some (v.length + 1) else none) = some (v.length + 1)
  rw [if_pos (by decide)]

theorem handlerAfterEq_at (v post : List Char) (hv : ∀ c ∈ v, isQuoteChar c = false) :
    handlerAfterEq (dquote :: (v ++ dquote :: post)) = some (1 + (v.length + 1)) := by
  unfold handlerAfterEq
  have h0 : afterWs (dquote :: (v ++ dquote :: post))
      = dquote :: (v ++ dquote :: post) := by
    unfold afterWs
    rw [countWhile_cons_false _ _ _ (by decide)]
    rfl
  rw [h0]
  show (if isQuoteChar dquote then
    (handlerQuoted (v ++ dquote :: post)).map
      (fun m => countWhile isSpaceChar (dquote :: (v ++ dquote :: post)) + 1 + m)
    else none) = some (1 + (v.length + 1))
  rw [if_pos (by decide), handlerQuoted_at v post hv,
    countWhile_cons_false _ _ _ (by decide)]
  show some (0 + 1 + (v.length + 1)) = some (1 + (v.length + 1))
  have he : 0 + 1 + (v.length + 1) = 1 + (v.length + 1) := by omega
  rw [he]

theorem handlerAfterName_at (v post : List Char)
    (hv : ∀ c ∈ v, isQuoteChar c = false) :
    handlerAfterName ('=' :: dquote :: (v ++ dquote :: post))
      = some (1 + (1 + (v.length + 1))) := by
  unfold handlerAfterName
  have h0 : afterWs ('=' :: dquote :: (v ++ dquote :: post))
      = '=' :: dquote :: (v ++ dquote :: post) := by
    unfold afterWs
    rw [countWhile_cons_false _ _ _ (by decide)]
    rfl
  rw [h0]
  show (handlerAfterEq (dquote :: (v ++ dquote :: post))).map
    (fun m => countWhile isSpaceChar ('=' :: dquote :: (v ++ dquote :: post)) + 1 + m)
    = some (1 + (1 + (v.length + 1)))
  rw [handlerAfterEq_at v post hv, countWhile_cons_false _ _ _ (by decide)]
  show some (0 + 1 + (1 + (v.length + 1))) = some (1 + (1 + (v.length + 1)))
  have he : 0 + 1 + (1 + (v.length + 1)) = 1 + (1 + (v.length + 1)) := by omega
  rw [he]

theorem handlerMatch_at_attr (v post : List Char)
    (hv : ∀ c ∈ v, isQuoteChar c = false) :
    handlerMatch (' ' :: 'o' :: 'n' :: 'c' :: 'l' :: 'i' :: 'c' :: 'k' :: '=' :: dquote
      :: (v ++ dquote :: post)) = some (11 + v.length) := by
  have hw : countWhile isSpaceChar (' ' :: 'o' :: 'n' :: 'c' :: 'l' :: 'i' :: 'c' :: 'k'
      :: '=' :: dquote :: (v ++ dquote :: post)) = 1 := by
    rw [countWhile_cons_true _ _ _ (by decide), countWhile_cons_false _ _ _ (by decide)]
  have hAW : afterWs (' ' :: 'o' :: 'n' :: 'c' :: 'l' :: 'i' :: 'c' :: 'k' :: '=' :: dquote
      :: (v ++ dquote :: post))
      = 'o' :: 'n' :: 'c' :: 'l' :: 'i' :: 'c' :: 'k' :: '=' :: dquote
        :: (v ++ dquote :: post) := by
    unfold afterWs
    rw [hw]
    rfl
  have hnw : countWhile isWordChar ('c' :: 'l' :: 'i' :: 'c' :: 'k' :: '=' :: dquote
      :: (v ++ dquote :: post)) = 5 := by
    rw [countWhile_cons_true _ _ _ (by decide), countWhile_cons_true _ _ _ (by decide),
      countWhile_cons_true _ _ _ (by decide), countWhile_cons_true _ _ _ (by decide),
      countWhile_cons_true _ _ _ (by decide), countWhile_cons_false _ _ _ (by decide)]
  unfold handlerMatch
  rw [hAW]
  rw [show ('o' :: 'n' :: 'c' :: 'l' :: 'i' :: 'c' :: 'k' :: '=' :: dquote
    :: (v ++ dquote :: post)).drop 2
    = 'c' :: 'l' :: 'i' :: 'c' :: 'k' :: '=' :: dquote :: (v ++ dquote :: post) from rfl]
  rw [if_pos (by simp [ciStarts, ciEq_refl]), hnw, if_neg (by decide)]
  rw [show ('c' :: 'l' :: 'i' :: 'c' :: 'k' :: '=' :: dquote
    :: (v ++ dquote :: post)).drop 5
    = '=' :: dquote :: (v ++ dquote :: post) from rfl]
  rw [handlerAfterName_at v post hv, hw]
  show some (1 + 2 + 5 + (1 + (1 + (v.length + 1)))) = some (11 + v.length)
  have he : 1 + 2 + 5 + (1 + (1 + (v.length + 1))) = 11 + v.length := by omega
  rw [he]

theorem mem_of_getLast?Some : ∀ (l : List Char) (c : Char), l.getLast? = some c → c ∈ l := by
  intro l
  induction l with
  | nil => intro c h; cases h
  | cons a l' ih =>
    intro c h
    cases l' with
    | nil =>
      have ha : a = c := by simpa using h
      simp [ha]
    | cons b l'' =>
      rw [List.getLast?_cons_cons] at h
      exact List.mem_cons_of_mem a (ih c h)

theorem handlerMatch_none_pre (t rest' : List Char) (ht : t ≠ [])
    (hlast : ∀ c, t.getLast? = some c → isSpaceChar c = false)
    (hon : hasSubCI ['o', 'n'] t = false) :
    handlerMatch (t ++ ' ' :: rest') = none := by
  obtain ⟨c0, hc0⟩ : ∃ c0, t.getLast? = some c0 := by
    cases h : t.getLast? with
    | none => exact absurd (List.getLast?_eq_none_iff.mp h) ht
    | some c => exact ⟨c, rfl⟩
  have hc0mem : c0 ∈ t := mem_of_getLast?Some t c0 hc0
  have hex : ∃ c ∈ t, isSpaceChar c = false := ⟨c0, hc0mem, hlast c0 hc0⟩
  obtain ⟨hcw_eq, hcw_lt⟩ := countWhile_not_all isSpaceChar t (' ' :: rest') hex
  obtain ⟨h0, tl, hdrop, hps⟩ := countWhile_drop_head isSpaceChar t hcw_lt
  have hAW : afterWs (t ++ ' ' :: rest') = (h0 :: tl) ++ ' ' :: rest' := by
    unfold afterWs
    rw [hcw_eq, List.drop_append_of_le_length (le_of_lt hcw_lt), hdrop]
  have hci : ciStarts ['o', 'n'] (afterWs (t ++ ' ' :: rest')) = false := by
    rw [hAW]
    cases tl with
    | nil =>
      show (ciEq 'o' h0 && (ciEq 'n' ' ' && true)) = false
      rw [show ciEq 'n' ' ' = false from by decide]
      simp
    | cons h1 tl' =>
      rw [ciStarts_append_left _ _ _ (by
        simp only [List.length_cons, List.length_nil]
        omega)]
      rw [← hdrop]
      exact hasSubCI_drop_false ['o', 'n'] (by simp) t hon _
  unfold handlerMatch
  rw [if_neg (by simp [hci])]

theorem removeHandlers_seam (pre v post : List Char)
    (hon : hasSubCI ['o', 'n'] pre = false)
    (hlast : ∀ c, pre.getLast? = some c → isSpaceChar c = false)
    (hv : ∀ c ∈ v, isQuoteChar c = false) :
    removeHandlers (pre ++ (' ' :: 'o' :: 'n' :: 'c' :: 'l' :: 'i' :: 'c' :: 'k' :: '='
        :: dquote :: (v ++ [dquote])) ++ post)
      = pre ++ removeHandlers post := by
  induction pre with
  | nil =>
    simp only [List.nil_append]
    have hsp : (' ' :: 'o' :: 'n' :: 'c' :: 'l' :: 'i' :: 'c' :: 'k' :: '=' :: dquote
        :: (v ++ [dquote])) ++ post
        = ' ' :: 'o' :: 'n' :: 'c' :: 'l' :: 'i' :: 'c' :: 'k' :: '=' :: dquote
          :: (v ++ dquote :: post) := by simp
    rw [hsp]
    have hm := handlerMatch_at_attr v post hv
    rw [removeHandlers_step_some _ _ hm (by simp)]
    rw [← hsp]
    rw [show (11 + v.length) = ((' ' :: 'o' :: 'n' :: 'c' :: 'l' :: 'i' :: 'c' :: 'k'
      :: '=' :: dquote :: (v ++ [dquote]))).length from by
      simp only [List.length_cons, List.length_append, List.length_singleton,
        List.length_nil]
      omega]
    rw [List.drop_left]
  | cons c pre' ih =>
    obtain ⟨h1, h2⟩ := hasSubCI_cons_split _ c pre' hon
    have hlast' : ∀ c', pre'.getLast? = some c' → isSpaceChar c' = false := by
      intro c' hc'
      apply hlast
      cases pre' with
      | nil => cases hc'
      | cons b l => rw [List.getLast?_cons_cons]; exact hc'
    have hnone : handlerMatch ((c :: pre') ++ ' ' :: ('o' :: 'n' :: 'c' :: 'l' :: 'i'
        :: 'c' :: 'k' :: '=' :: dquote :: (v ++ [dquote]) ++ post)) = none :=
      handlerMatch_none_pre (c :: pre') _ (by simp) hlast hon
    rw [show (c :: pre') ++ (' ' :: 'o' :: 'n' :: 'c' :: 'l' :: 'i' :: 'c' :: 'k' :: '='
        :: dquote :: (v ++ [dquote])) ++ post
      = c :: (pre' ++ (' ' :: 'o' :: 'n' :: 'c' :: 'l' :: 'i' :: 'c' :: 'k' :: '='
        :: dquote :: (v ++ [dquote])) ++ post) from by simp]
    rw [removeHandlers_cons_none c _ (by
      have := hnone
      rw [show (c :: pre') ++ ' ' :: ('o' :: 'n' :: 'c' :: 'l' :: 'i' :: 'c' :: 'k' :: '='
          :: dquote :: (v ++ [dquote]) ++ post)
        = c :: (pre' ++ (' ' :: 'o' :: 'n' :: 'c' :: 'l' :: 'i' :: 'c' :: 'k' :: '='
          :: dquote :: (v ++ [dquote])) ++ post) from by simp] at this
      exact this)]
    rw [ih h2 hlast']
    simp

theorem process_escape_fence (t : String) (h0 : ¬ t = "")
    (h1 : startsWithFence t.data = true) : process_escape_sequences t = t := by
  unfold process_escape_sequences
  rw [if_neg h0, if_pos h1]

theorem process_escape_plain (t : String) (h0 : ¬ t = "")
    (h1 : ¬ startsWithFence t.data = true) :
    process_escape_sequences t = ⟨resolveL t.data⟩ := by
  unfold process_escape_sequences
  rw [if_neg h0, if_neg h1]

theorem process_escape_idem (t : String) :
    process_escape_sequences (process_escape_sequences t) = process_escape_sequences t := by
  by_cases h0 : t = ""
  · rw [h0]
    rfl
  · by_cases h1 : startsWithFence t.data = true
    · have he := process_escape_fence t h0 h1
      rw [he]
      exact he
    · rw [process_escape_plain t h0 h1]
      by_cases hr0 : (⟨resolveL t.data⟩ : String) = ""
      · rw [hr0]
        rfl
      · by_cases hr1 : startsWithFence (⟨resolveL t.data⟩ : String).data = true
        · exact process_escape_fence _ hr0 hr1
        · rw [process_escape_plain _ hr0 hr1]
          show (⟨resolveL (resolveL t.data)⟩ : String) = ⟨resolveL t.data⟩
          rw [resolveL_idem]

theorem process_vlm_output_eq (t : String) (h0 : ¬ t = "")
    (hj : jsonLoads (sanitize t) = none) :
    process_vlm_output t
      = process_escape_sequences (convert_html_tables (sanitize t)) := by
  unfold process_vlm_output process_vlm_outputWith detect_and_format_json
  simp [h0, hj]

theorem enumFrom_succ_lines (n : Nat) (rs : List (List String)) :
    ((List.enumFrom (n + 1) rs).map fun p =>
      if p.1 = 0 then [renderRow p.2, sepRow p.2.length] else [renderRow p.2]).flatten
      = rs.map renderRow := by
  induction rs generalizing n with
  | nil => rfl
  | cons r rs ih =>
    simp only [List.enumFrom, List.map_cons, List.flatten_cons, Nat.succ_ne_zero,
      if_neg, List.map]
    rw [ih (n + 1)]
    rfl

theorem get_markdown_cons (r : List String) (rs : List (List String)) :
    get_markdown (r :: rs)
      = String.intercalate "\n" (renderRow r :: sepRow r.length :: rs.map renderRow) := by
  unfold get_markdown
  rw [if_neg (by simp)]
  show String.intercalate "\n"
    ((List.enumFrom 0 (r :: rs)).map fun p =>
      if p.1 = 0 then [renderRow p.2, sepRow p.2.length] else [renderRow p.2]).flatten = _
  simp only [List.enumFrom, List.map_cons, List.flatten_cons, if_pos rfl]
  rw [enumFrom_succ_lines 0 rs]
  rfl

/-- C7: for empty or absent input, `_process_vlm_output` returns the empty
string whatever the four downstream stages are (so none of them is invoked),
and in particular the concrete pipeline maps `""` to `""`. -/
theorem processOutput_empty_skips_stages :
    (∀ san fmt tab esc, process_vlm_outputWith san fmt tab esc none = "") ∧
    (∀ san fmt tab esc, process_vlm_outputWith san fmt tab esc (some "") = "") ∧
    process_vlm_output "" = "" := by
  refine ⟨fun _ _ _ _ => rfl, fun _ _ _ _ => rfl, rfl⟩

/-- C8: after `on_field_select` or `on_change_current_sample` the panel is in
view mode with a cleared edit buffer — whatever state (in particular edit
mode) it was in — and the display text is the value read from the newly
selected field of the current record when that lookup succeeds. -/
theorem field_or_record_change_exits_edit (env : Env) (v : Option String)
    (s : PanelState) (sid f val : String) (sm : Sample) :
    (on_field_select env v s).edit_mode = false ∧
    (on_field_select env v s).edit_text = none ∧
    (on_change_current_sample env s).edit_mode = false ∧
    (on_change_current_sample env s).edit_text = none ∧
    (v = some f → env.currentSample = some sid → env.getSample sid = .ok sm →
      sm f = some (some val) → (on_field_select env v s).display_text = val) ∧
    (s.selected_field = some f → env.currentSample = some sid →
      env.getSample sid = .ok sm → sm f = some (some val) →
      (on_change_current_sample env s).display_text = val) := by
  refine ⟨?_, ?_, ?_, ?_, ?_, ?_⟩
  · rw [on_field_select, on_load_edit_mode]
  · rw [on_field_select, on_load_edit_text]
  · rw [on_change_current_sample, on_load_edit_mode]
  · rw [on_change_current_sample, on_load_edit_text]
  · intro hv hc hg hf
    simp only [on_field_select, on_load, hv, hc, hg, hf]
  · intro hsel hc hg hf
    simp only [on_change_current_sample, on_load, hsel, hc, hg, hf]

/-- Closed witness for `field_or_record_change_exits_edit`, instantiated at a
state sitting in edit mode with a pending buffer. -/
theorem field_or_record_change_exits_edit_witness :
    (on_field_select
      { currentSample := some "s1",
        getSample := fun _ => .ok fun _ => some (some "fresh"),
        persist := fun _ _ _ => .ok () }
      (some "caption")
      { selected_field := some "old", display_text := "stale", edit_mode := true,
        edit_text := some "draft", empty_state := none }).display_text = "fresh" := by
  exact (field_or_record_change_exits_edit _ (some "caption") _ "s1" "caption" "fresh"
    _).2.2.2.2.1 rfl rfl rfl rfl

/-- C9: when persisting the edited value fails, `on_save_edit` returns the
state unchanged — still in edit mode if it was, with the edit buffer and the
cached display text intact. -/
theorem save_failure_keeps_state (env : Env) (s : PanelState) (sid f : String)
    (hc : env.currentSample = some sid) (hf : s.selected_field = some f)
    (hp : env.persist sid f (s.edit_text.getD "") = .error ()) :
    on_save_edit env s = s ∧
    (on_save_edit env s).edit_mode = s.edit_mode ∧
    (on_save_edit env s).edit_text = s.edit_text ∧
    (on_save_edit env s).display_text = s.display_text := by
  have h : on_save_edit env s = s := by
    simp only [on_save_edit, hc, hf, hp]
  exact ⟨h, by rw [h], by rw [h], by rw [h]⟩

/-- Closed witness for `save_failure_keeps_state`: a failing store leaves the
editing session exactly as it was. -/
theorem save_failure_keeps_state_witness :
    on_save_edit
      { currentSample := some "s1",
        getSample := fun _ => .ok fun _ => some (some "v"),
        persist := fun _ _ _ => .error () }
      { selected_field := some "caption", display_text := "shown", edit_mode := true,
        edit_text := some "draft", empty_state := none }
    = { selected_field := some "caption", display_text := "shown", edit_mode := true,
        edit_text := some "draft", empty_state := none } := by
  exact (save_failure_keeps_state _ _ "s1" "caption" rfl rfl rfl).1

/-- C10: every action sequence run from the initial state keeps the
invariant that a cleared edit mode implies a cleared edit buffer. -/
theorem edit_buffer_invariant (steps : List (Env × Action)) :
    EditInv (runActions steps initState) :=
  runActions_inv steps initState (fun _ => rfl)

/-- C2: `_detect_and_format_json` parses the whole input strictly; success
yields the 2-space re-serialization in a `json` fence with `True` (with the
exact output required on `\x7b"a":1\x7d`), and failure — syntax error,
trailing content or empty input — returns the input unchanged with
`False`. -/
theorem tryFormatJson_spec :
    detect_and_format_json "\x7b\"a\":1\x7d"
        = ("```json\n\x7b\n  \"a\": 1\n\x7d\n```", true) ∧
    (∀ s v, jsonLoads s = some v →
      detect_and_format_json s
        = ("```json\n" ++ String.mk (dumpsVal 0 v) ++ "\n```", true)) ∧
    (∀ s, jsonLoads s = none → detect_and_format_json s = (s, false)) ∧
    jsonLoads "" = none ∧
    jsonLoads "\x7b\"a\":1\x7d x" = none ∧
    jsonLoads "not json" = none := by
  refine ⟨by decide, ?_, ?_, by decide, by decide, by decide⟩
  · intro s v h
    unfold detect_and_format_json
    rw [h]
  · intro s h
    unfold detect_and_format_json
    rw [h]

/-- Closed witness for `tryFormatJson_spec`, applying both implications at
concrete inputs. -/
theorem tryFormatJson_spec_witness :
    detect_and_format_json "true" = ("```json\ntrue\n```", true) ∧
    detect_and_format_json "not json" = ("not json", false) := by
  constructor
  · exact (tryFormatJson_spec.2.1 "true" (.jbool true) (by decide)).trans (by decide)
  · exact tryFormatJson_spec.2.2.1 "not json" (by decide)

/-- C5: `_process_escape_sequences` is the identity on any input whose
stripped text starts with the fence marker; on every other input it performs
the global, unguarded replacement of literal `\n`, `\t`, `\r` by newline,
tab and carriage return (so in particular no literal sequence survives), as
on the concrete example. -/
theorem resolveEscapes_spec :
    (∀ t : String, startsWithFence t.data = true → process_escape_sequences t = t) ∧
    process_escape_sequences "line1\\nline2" = "line1\nline2" ∧
    (∀ t : String, t ≠ "" → startsWithFence t.data = false →
      process_escape_sequences t
        = ⟨replace2 bslash 'r' '\r'
            (replace2 bslash 't' '\t' (replace2 bslash 'n' '\n' t.data))⟩) ∧
    (∀ t : String, startsWithFence t.data = false →
      contains2 bslash 'n' (process_escape_sequences t).data = false ∧
      contains2 bslash 't' (process_escape_sequences t).data = false ∧
      contains2 bslash 'r' (process_escape_sequences t).data = false) := by
  refine ⟨?_, by decide, ?_, ?_⟩
  · intro t h
    have hne : ¬ t = "" := by
      intro he
      rw [he] at h
      exact absurd h (by decide)
    unfold process_escape_sequences
    rw [if_neg hne, if_pos h]
  · intro t hne hf
    unfold process_escape_sequences
    rw [if_neg hne, if_neg (by simp [hf]), resolveL_eq_chain]
  · intro t hf
    by_cases hne : t = ""
    · rw [hne]
      exact ⟨rfl, rfl, rfl⟩
    · unfold process_escape_sequences
      rw [if_neg hne, if_neg (by simp [hf])]
      exact resolveL_no_literals t.data

/-- Closed witness for `resolveEscapes_spec`: a fenced input is untouched,
and a plain input has its literal sequences resolved with none left. -/
theorem resolveEscapes_spec_witness :
    process_escape_sequences " ```a\\nb" = " ```a\\nb" ∧
    process_escape_sequences "x\\ny" = "x\ny" ∧
    contains2 bslash 'n' (process_escape_sequences "x\\ny").data = false := by
  refine ⟨resolveEscapes_spec.1 _ (by decide), ?_, (resolveEscapes_spec.2.2.2 _ (by decide)).1⟩
  exact (resolveEscapes_spec.2.2.1 "x\\ny" (by decide) (by decide)).trans (by decide)

/-- C1 counterexample: `sanitize` output is not always free of dangerous
fragments — an unterminated `<script` survives unchanged (so the output
contains the case-insensitive substring `<script`), and an unquoted handler
`onclick=x` survives (so the output matches `on\w+\s*=`). -/
theorem sanitize_not_always_clean :
    sanitize "<script" = "<script" ∧
    hasSubCI scriptOpen (sanitize "<script").data = true ∧
    sanitize "onclick=x" = "onclick=x" ∧
    hasOnEq (sanitize "onclick=x").data = true :=
  ⟨by decide, by decide, by decide, by decide⟩

/-- C1 amended: the sanitizer removes every *well-formed* dangerous
construct, as the spec's best-effort caveat describes.  The script pass
deletes a complete `<script attrs>body</script>` span whose preceding text
has no `<script` occurrence, whose attributes contain no `>`, and whose body
has no `</script>`; the handler pass deletes a whitespace-preceded quoted
` onclick="value"` attribute whose preceding text has no `on` occurrence and
does not end in whitespace, and whose value has no quote characters; the
composed `sanitize` does both on concrete inputs.  Unterminated `<script`
and unquoted `on\w+=` survive (see the counterexample). -/
theorem sanitize_removes_wellformed :
    (∀ pre attrs body post : List Char, hasSubCI scriptOpen pre = false →
      (∀ c ∈ attrs, (c == '>') = false) → hasSubCI scriptClose body = false →
      removeScripts (pre ++ (scriptOpen ++ attrs ++ '>' :: body ++ scriptClose) ++ post)
        = pre ++ removeScripts post) ∧
    (∀ pre v post : List Char, hasSubCI ['o', 'n'] pre = false →
      pre.getLast?.all (fun c => !isSpaceChar c) = true →
      (∀ c ∈ v, isQuoteChar c = false) →
      removeHandlers (pre ++ (' ' :: 'o' :: 'n' :: 'c' :: 'l' :: 'i' :: 'c' :: 'k' :: '='
          :: dquote :: (v ++ [dquote])) ++ post)
        = pre ++ removeHandlers post) ∧
    sanitize "a<script type=\"t\">bad()</script>b" = "ab" ∧
    sanitize "<div onclick=\"alert(1)\">hi</div>" = "<div>hi</div>" := by
  refine ⟨removeScripts_seam, ?_, by decide, by decide⟩
  intro pre v post hon hlastB hv
  refine removeHandlers_seam pre v post hon ?_ hv
  intro c hc
  rw [hc] at hlastB
  simpa using hlastB

/-- Closed witness for `sanitize_removes_wellformed`: both removal passes
applied at concrete surroundings. -/
theorem sanitize_removes_wellformed_witness :
    removeScripts ("x".toList ++ (scriptOpen ++ " a=\"b\"".toList ++ '>' :: "bad".toList
        ++ scriptClose) ++ "y".toList)
      = "x".toList ++ removeScripts "y".toList ∧
    removeHandlers ("<div".toList ++ (' ' :: 'o' :: 'n' :: 'c' :: 'l' :: 'i' :: 'c' :: 'k'
        :: '=' :: dquote :: ("go()".toList ++ [dquote])) ++ ">".toList)
      = "<div".toList ++ removeHandlers ">".toList := by
  constructor
  · exact sanitize_removes_wellformed.1 "x".toList " a=\"b\"".toList "bad".toList
      "y".toList (by decide) (by decide) (by decide)
  · exact sanitize_removes_wellformed.2.1 "<div".toList "go()".toList ">".toList
      (by decide) (by decide) (by decide)

/-- C6: per-span failure policy of `_convert_html_tables_to_markdown` — a
parse failure on a span yields the fenced `html` block holding the raw span,
a parsed grid with zero rows returns the span verbatim (never an empty
replacement), and the substitution is per-span local: whatever the parsing
step does on a span, the text before it is untouched and the text after it
is processed independently. -/
theorem table_span_failure_policy :
    (∀ (parse : List Char → Except Unit (List (List String))) (span : List Char),
      parse span = .error () →
      replace_table parse span = "\n```html\n".toList ++ span ++ "\n```\n".toList) ∧
    (∀ (parse : List Char → Except Unit (List (List String))) (span : List Char),
      parse span = .ok [] → replace_table parse span = span) ∧
    (∀ (parse : List Char → Except Unit (List (List String))) (pre mid post : List Char),
      hasSubCI tableOpen pre = false → hasSubCI tableClose mid = false →
      convertTablesL (replace_table parse)
          (pre ++ (tableOpen ++ mid ++ tableClose) ++ post)
        = pre ++ replace_table parse (tableOpen ++ mid ++ tableClose)
            ++ convertTablesL (replace_table parse) post) := by
  refine ⟨?_, ?_, ?_⟩
  · intro parse span h
    unfold replace_table
    rw [h]
  · intro parse span h
    unfold replace_table
    rw [h]
    show (if get_markdown [] ≠ "" then _ else span) = span
    rw [if_neg]
    simp [get_markdown]
  · intro parse pre mid post h1 h2
    exact convertTables_seam _ pre mid post h1 h2

/-- Closed witness for `table_span_failure_policy`: a failing parse yields
the fenced block, an empty grid passes the span through, and a span between
plain text is replaced in place with the rest processed independently. -/
theorem table_span_failure_policy_witness :
    replace_table (fun _ => .error ()) "<table>x</table>".toList
      = "\n```html\n<table>x</table>\n```\n".toList ∧
    replace_table tableParse "<table>junk</table>".toList
      = "<table>junk</table>".toList ∧
    convertTablesL (replace_table tableParse)
        ("a".toList ++ (tableOpen ++ "<tr><td>1</td></tr>".toList ++ tableClose)
          ++ "b".toList)
      = "a".toList
        ++ replace_table tableParse
            (tableOpen ++ "<tr><td>1</td></tr>".toList ++ tableClose)
        ++ convertTablesL (replace_table tableParse) "b".toList := by
  refine ⟨?_, ?_, ?_⟩
  · exact (table_span_failure_policy.1 (fun _ => .error ()) _ rfl).trans (by decide)
  · exact table_span_failure_policy.2.1 tableParse _ rfl
  · exact table_span_failure_policy.2.2 tableParse "a".toList
      "<tr><td>1</td></tr>".toList "b".toList (by decide) (by decide)

/-- C4 counterexample: a plain-text input — fixed by the sanitizer, not
JSON, without tables — on which running the pipeline twice differs from
running it once: resolving the literal `\n` sequences creates an inline
event-handler match (`onclick` newline `=` newline quoted value) that the
second run's sanitizer removes. -/
theorem pipeline_not_idempotent :
    sanitize "abc\\nonclick\\n=\\n\"x\"" = "abc\\nonclick\\n=\\n\"x\"" ∧
    jsonLoads "abc\\nonclick\\n=\\n\"x\"" = none ∧
    convert_html_tables "abc\\nonclick\\n=\\n\"x\"" = "abc\\nonclick\\n=\\n\"x\"" ∧
    process_vlm_output (process_vlm_output "abc\\nonclick\\n=\\n\"x\"")
      ≠ process_vlm_output "abc\\nonclick\\n=\\n\"x\"" :=
  ⟨by decide, by decide, by decide, by decide⟩

/-- C4 amended: the pipeline (sanitize, JSON classification, table
conversion, escape resolution) is idempotent on plain text provided the text
is plain both before and after escape resolution — each of the three stages
fixes the input, and also fixes its escape-resolved form (without the second
set of hypotheses the counterexample above applies). -/
theorem pipeline_idem_amended (t : String)
    (hs : sanitize t = t) (hj : jsonLoads t = none) (ht : convert_html_tables t = t)
    (hs2 : sanitize (process_escape_sequences t) = process_escape_sequences t)
    (hj2 : jsonLoads (process_escape_sequences t) = none)
    (ht2 : convert_html_tables (process_escape_sequences t) = process_escape_sequences t) :
    process_vlm_output (process_vlm_output t) = process_vlm_output t := by
  by_cases h0 : t = ""
  · rw [h0]
    rfl
  · have e1 : process_vlm_output t = process_escape_sequences t := by
      rw [process_vlm_output_eq t h0 (by rw [hs]; exact hj), hs, ht]
    rw [e1]
    by_cases hr0 : process_escape_sequences t = ""
    · rw [hr0]
      rfl
    · rw [process_vlm_output_eq _ hr0 (by rw [hs2]; exact hj2), hs2, ht2]
      exact process_escape_idem t

/-- Closed witness for `pipeline_idem_amended` at a plain-text input with a
literal escape sequence. -/
theorem pipeline_idem_amended_witness :
    process_vlm_output (process_vlm_output "hello\\nworld")
      = process_vlm_output "hello\\nworld" :=
  pipeline_idem_amended "hello\\nworld" (by decide) (by decide) (by decide)
    (by decide) (by decide) (by decide)

/-- C3: converting the given two-row table yields exactly the three grid
lines surrounded by blank lines; in general a non-empty grid renders as the
first row, then a separator sized by the first row's width (whatever the
later rows' widths), then the remaining rows, each row `| c1 | c2 | ... |`
with literal pipes escaped. -/
theorem table_roundtrip_and_rendering :
    convert_html_tables
        "<table><tr><th>A</th><th>B</th></tr><tr><td>1</td><td>2</td></tr></table>"
      = "\n\n| A | B |\n| --- | --- |\n| 1 | 2 |\n\n" ∧
    (∀ r rs, get_markdown (r :: rs)
      = String.intercalate "\n" (renderRow r :: sepRow r.length :: rs.map renderRow)) ∧
    escapeCell "a|b" = "a\\|b" ∧
    renderRow ["a|b", "c"] = "| a\\|b | c |" := by
  exact ⟨by decide, get_markdown_cons, by decide, by decide⟩

/-- Closed witness for `edit_buffer_invariant` on a concrete action history
ending outside edit mode. -/
theorem edit_buffer_invariant_witness :
    (runActions
      [({ currentSample := some "s1",
          getSample := fun _ => .ok fun _ => some (some "v"),
          persist := fun _ _ _ => .error () }, .fieldSelect (some "caption")),
       ({ currentSample := some "s1",
          getSample := fun _ => .ok fun _ => some (some "v"),
          persist := fun _ _ _ => .error () }, .editClick),
       ({ currentSample := some "s1",
          getSample := fun _ => .ok fun _ => some (some "v"),
          persist := fun _ _ _ => .error () }, .cancelEdit)] initState).edit_text
      = none := by
  exact edit_buffer_invariant _ rfl

end CaptionViewer
